import Mathlib

/-!
Exclusive-access retry primitives of bionic_atomic_arm.h

A shallow embedding of `libc/private/bionic_atomic_arm.h`.

The header consists of inline assembly, so the embedding has three layers:

* the assembly text of every primitive, as a list of `Asm` items produced from
  the build configuration exactly as the preprocessor produces it
  (`__ATOMIC_SWITCH_TO_ARM`, `__ATOMIC_SWITCH_TO_THUMB`, `__ATOMIC_CLOBBERS`,
  `cmpxchg_asm`, `swap_asm`, `atomic_dec_asm`);
* the meaning of one instruction on a processor state `Cpu` that holds the
  target word, the local exclusive monitor, the decoding mode, the operand
  registers and an event log (`exec`);
* the C `do { ... } while (status != 0)` loop with explicit fuel (`doWhile`)
  and the three C functions built from it.

Other agents (other processors, interrupts) are represented by a schedule:
for every loop iteration the list of events that hit the target word before
the exclusive load and the list of events that hit it between the exclusive
load and the exclusive store.

A last part interleaves several threads, each inside one of the three
functions, instruction by instruction on one shared word.

The instructions compute on `Int`; `sub` reduces its result to 32 bits
(`wrap32`). The decoding mode is tracked (the `bx` of the shim switches it) and
recorded with every exclusive access, but the instruction semantics does not
depend on it.
-/

namespace BionicAtomicArm

/-! ## Build configuration and assembly text -/

/-- The compiler-predefined macros the header tests. -/
structure Build where
  /-- whether `__thumb__` is defined -/
  thumb : Bool
  /-- whether `__thumb2__` is defined -/
  thumb2 : Bool
  deriving DecidableEq, Repr

/-- The header's test `defined(__thumb__) && !defined(__thumb2__)`. -/
def Build.thumb1 (b : Build) : Bool := b.thumb && !b.thumb2

/-- Instruction decoding mode of the processor. -/
inductive Mode
  | arm
  | thumb
  deriving DecidableEq, Repr

/-- The mode in which the compiler emits (and the processor runs) the code
surrounding the inline assembly: compact encoding when `__thumb__` is defined. -/
def Build.mode (b : Build) : Mode := if b.thumb then Mode.thumb else Mode.arm

/-- Registers named in the assembly: the C operands and the scratch `r3`. -/
inductive Reg
  | prev
  | status
  | tmp
  | old_value
  | new_value
  | r3
  deriving DecidableEq, Repr

/-- Condition suffix of an instruction. -/
inductive Cond
  | al
  | eq
  deriving DecidableEq, Repr

/-- One line of assembly text. The address operand `[ptr]` of the exclusive
accesses is always the target word and is left implicit. -/
inductive Asm
  /-- instruction `adr rd, <lbl>f+off` -/
  | adr (rd : Reg) (lbl : Nat) (off : Nat)
  /-- instruction `bx rm` -/
  | bx (rm : Reg)
  /-- directive `.align` -/
  | align
  /-- directive `.arm` -/
  | arm
  /-- directive `.thumb` -/
  | thumb
  /-- local label `<lbl>:` -/
  | label (lbl : Nat)
  /-- instruction `ldrex rt, [ptr]` -/
  | ldrex (rt : Reg)
  /-- instruction `mov rd, #imm` -/
  | mov (rd : Reg) (imm : Int)
  /-- instruction `teq rn, rm` -/
  | teq (rn rm : Reg)
  /-- instruction `it eq` -/
  | it_eq
  /-- instruction `strex<c> rd, rt, [ptr]` -/
  | strex (c : Cond) (rd rt : Reg)
  /-- instruction `sub rd, rn, #imm` -/
  | sub (rd rn : Reg) (imm : Int)
  deriving DecidableEq, Repr

/-- Macro `__ATOMIC_SWITCH_TO_ARM` (header lines 36-42 and 53). -/
def __ATOMIC_SWITCH_TO_ARM (b : Build) : List Asm :=
  if b.thumb1 then
    [Asm.adr Reg.r3 5 0, Asm.bx Reg.r3, Asm.align, Asm.arm, Asm.label 5]
  else []

/-- Macro `__ATOMIC_SWITCH_TO_THUMB` (header lines 44-49 and 54). -/
def __ATOMIC_SWITCH_TO_THUMB (b : Build) : List Asm :=
  if b.thumb1 then
    [Asm.adr Reg.r3 6 1, Asm.bx Reg.r3, Asm.thumb, Asm.label 6]
  else []

/-- An entry of the clobber list of an assembly statement. -/
inductive Clobber
  /-- register `"r3"` -/
  | r3
  /-- condition flags `"cc"` -/
  | cc
  deriving DecidableEq, Repr

/-- Macro `__ATOMIC_CLOBBERS` (header lines 51 and 55). -/
def __ATOMIC_CLOBBERS (b : Build) : List Clobber :=
  if b.thumb1 then [Clobber.r3] else []

/-- Assembly template of `__bionic_cmpxchg` (header lines 77-85). -/
def cmpxchg_asm (b : Build) : List Asm :=
  __ATOMIC_SWITCH_TO_ARM b
    ++ [Asm.ldrex Reg.prev, Asm.mov Reg.status 0, Asm.teq Reg.prev Reg.old_value]
    ++ (if b.thumb2 then [Asm.it_eq] else [])
    ++ [Asm.strex Cond.eq Reg.status Reg.new_value]
    ++ __ATOMIC_SWITCH_TO_THUMB b

/-- Clobber list of the `__bionic_cmpxchg` assembly statement (header line 88). -/
def cmpxchg_clobbers (b : Build) : List Clobber := __ATOMIC_CLOBBERS b ++ [Clobber.cc]

/-- Assembly template of `__bionic_swap` (header lines 98-99). -/
def swap_asm (_b : Build) : List Asm :=
  [Asm.ldrex Reg.prev, Asm.strex Cond.al Reg.status Reg.new_value]

/-- Clobber list of the `__bionic_swap` assembly statement (header line 102). -/
def swap_clobbers (_b : Build) : List Clobber := [Clobber.cc]

/-- Assembly template of `__bionic_atomic_dec` (header lines 112-114). -/
def atomic_dec_asm (_b : Build) : List Asm :=
  [Asm.ldrex Reg.prev, Asm.sub Reg.tmp Reg.prev 1, Asm.strex Cond.al Reg.status Reg.tmp]

/-- Clobber list of the `__bionic_atomic_dec` assembly statement (header line 117). -/
def atomic_dec_clobbers (_b : Build) : List Clobber := [Clobber.cc]

/-! ## Processor state and instruction semantics -/

/-- Smallest `int32_t`. -/
def INT32_MIN : Int := -2147483648

/-- Largest `int32_t`. -/
def INT32_MAX : Int := 2147483647

/-- Reduction of an integer to the `int32_t` with the same residue modulo `2^32`. -/
def wrap32 (x : Int) : Int := (x + 2147483648) % 4294967296 - 2147483648

/-- What the processor did to the target word, in program order. -/
inductive Event
  /-- an exclusive load executed in mode `m` and read `v` -/
  | load (m : Mode) (v : Int)
  /-- an exclusive store of `v` executed in mode `m`; `ok` tells whether the
  reservation held, that is whether the store was committed -/
  | store (m : Mode) (v : Int) (ok : Bool)
  /-- the loop condition `status != 0` was true -/
  | retry
  /-- the loop condition `status != 0` was false -/
  | done
  deriving DecidableEq, Repr

/-- Processor state seen by one call. -/
structure Cpu where
  /-- the target word `*ptr` -/
  mem : Int
  /-- the local exclusive monitor holds a reservation on the target word -/
  excl : Bool
  /-- current decoding mode -/
  mode : Mode
  /-- the Z condition flag -/
  z : Bool
  prev : Int
  status : Int
  tmp : Int
  old_value : Int
  new_value : Int
  r3 : Int
  /-- events so far, oldest first -/
  log : List Event
  deriving DecidableEq, Repr

/-- Register read. -/
def Cpu.get (c : Cpu) : Reg → Int
  | Reg.prev => c.prev
  | Reg.status => c.status
  | Reg.tmp => c.tmp
  | Reg.old_value => c.old_value
  | Reg.new_value => c.new_value
  | Reg.r3 => c.r3

/-- Register write. -/
def Cpu.set (c : Cpu) (r : Reg) (v : Int) : Cpu :=
  match r with
  | Reg.prev => { c with prev := v }
  | Reg.status => { c with status := v }
  | Reg.tmp => { c with tmp := v }
  | Reg.old_value => { c with old_value := v }
  | Reg.new_value => { c with new_value := v }
  | Reg.r3 => { c with r3 := v }

/-- Something another agent does to the target word or to the reservation. -/
inductive Ev
  /-- another agent stores `w` into the target word; this also invalidates
  the reservation -/
  | write (w : Int)
  /-- the reservation is invalidated without a store (interrupt, context
  switch, another exclusive load) -/
  | clear
  deriving DecidableEq, Repr

/-- Effect of one foreign event. -/
def Ev.apply (e : Ev) (c : Cpu) : Cpu :=
  match e with
  | Ev.write w => { c with mem := w, excl := false }
  | Ev.clear => { c with excl := false }

/-- Effect of a list of foreign events, oldest first. -/
def applyEvs (es : List Ev) (c : Cpu) : Cpu := es.foldl (fun c e => e.apply c) c

/-- Foreign events during one loop iteration. -/
structure IterEnv where
  /-- events before the exclusive load of the iteration -/
  pre : List Ev
  /-- events between the exclusive load and the exclusive store -/
  mid : List Ev
  deriving DecidableEq, Repr

/-- Foreign events for every loop iteration. -/
abbrev Sched := Nat → IterEnv

/-- Address of a local label. Labels are instruction aligned, so the address
is even; only bit 0 of a branch target is ever inspected. -/
def labelAddr (lbl : Nat) : Int := 4 * (lbl : Int)

/-- Whether a condition suffix passes. -/
def Cond.holds (k : Cond) (c : Cpu) : Bool :=
  match k with
  | Cond.al => true
  | Cond.eq => c.z

/-- Semantics of one line of assembly. -/
def exec (env : IterEnv) (i : Asm) (c : Cpu) : Cpu :=
  match i with
  | Asm.adr rd lbl off => c.set rd (labelAddr lbl + (off : Int))
  | Asm.bx rm => { c with mode := if c.get rm % 2 = 1 then Mode.thumb else Mode.arm }
  | Asm.align => c
  | Asm.arm => c
  | Asm.thumb => c
  | Asm.label _ => c
  | Asm.it_eq => c
  | Asm.ldrex rt =>
    let c1 := applyEvs env.pre c
    let c2 := c1.set rt c1.mem
    { c2 with excl := true, log := c2.log ++ [Event.load c2.mode c1.mem] }
  | Asm.mov rd imm => c.set rd imm
  | Asm.teq rn rm => { c with z := decide (c.get rn = c.get rm) }
  | Asm.strex k rd rt =>
    let c1 := applyEvs env.mid c
    if k.holds c1 then
      if c1.excl then
        let c2 := c1.set rd 0
        { c2 with mem := c1.get rt, excl := false,
                  log := c2.log ++ [Event.store c2.mode (c1.get rt) true] }
      else
        let c2 := c1.set rd 1
        { c2 with excl := false,
                  log := c2.log ++ [Event.store c2.mode (c1.get rt) false] }
    else c1
  | Asm.sub rd rn imm => c.set rd (wrap32 (c.get rn - imm))

/-- Semantics of an assembly statement: its lines in order. -/
def execAsm (env : IterEnv) (body : List Asm) (c : Cpu) : Cpu :=
  body.foldl (fun c i => exec env i c) c

/-- The loop `do { asm } while (status != 0)`, with fuel; iteration `i` of the
loop meets the foreign events `s i`. -/
def doWhile (body : List Asm) (s : Sched) : Nat → Nat → Cpu → Option Cpu
  | 0, _, _ => none
  | fuel + 1, i, c =>
    let c1 := execAsm (s i) body c
    if c1.status ≠ 0 then
      doWhile body s fuel (i + 1) { c1 with log := c1.log ++ [Event.retry] }
    else
      some { c1 with log := c1.log ++ [Event.done] }

/-- Function `__bionic_cmpxchg(old_value, new_value, ptr)` (header lines 71-91):
the returned pair is the C return value and the final processor state, whose
log holds the events of this call. -/
def __bionic_cmpxchg (b : Build) (s : Sched) (fuel : Nat)
    (old_value new_value : Int) (c : Cpu) : Option (Int × Cpu) :=
  (doWhile (cmpxchg_asm b) s fuel 0
      { c with old_value := old_value, new_value := new_value, log := [] }).map
    fun c1 => (if c1.prev ≠ old_value then 1 else 0, c1)

/-- Function `__bionic_swap(new_value, ptr)` (header lines 94-105). -/
def __bionic_swap (b : Build) (s : Sched) (fuel : Nat)
    (new_value : Int) (c : Cpu) : Option (Int × Cpu) :=
  (doWhile (swap_asm b) s fuel 0 { c with new_value := new_value, log := [] }).map
    fun c1 => (c1.prev, c1)

/-- Function `__bionic_atomic_dec(ptr)` (header lines 108-120). -/
def __bionic_atomic_dec (b : Build) (s : Sched) (fuel : Nat) (c : Cpu) :
    Option (Int × Cpu) :=
  (doWhile (atomic_dec_asm b) s fuel 0 { c with log := [] }).map fun c1 => (c1.prev, c1)

/-! ## Vocabulary for schedules and logs -/

/-- No foreign event at all. -/
def quiet : IterEnv := ⟨[], []⟩

/-- A processor state at function entry, in the mode of the build, whose
registers hold arbitrary junk (zero here) and whose target word holds `v`. -/
def entry (b : Build) (v : Int) : Cpu :=
  { mem := v, excl := false, mode := b.mode, z := false, prev := 0, status := 0,
    tmp := 0, old_value := 0, new_value := 0, r3 := 0, log := [] }

/-- The event is a reservation loss without a store. -/
def Ev.isClear : Ev → Bool
  | Ev.clear => true
  | Ev.write _ => false

/-- No other agent writes the target word during the iteration. -/
def IterEnv.noWrites (e : IterEnv) : Bool := e.pre.all Ev.isClear && e.mid.all Ev.isClear

/-- The target word after a list of foreign events. -/
def envMem (es : List Ev) (m : Int) : Int :=
  es.foldl (fun m e => match e with
    | Ev.write w => w
    | Ev.clear => m) m

/-- The reservation after a list of foreign events: any event invalidates it. -/
def envExcl (es : List Ev) (x : Bool) : Bool := x && es.isEmpty

/-- Number of evaluations of the loop condition, that is of loop iterations. -/
def iterations (log : List Event) : Nat :=
  log.countP fun e => decide (e = Event.retry) || decide (e = Event.done)

/-- The event is an exclusive store that lost its reservation. -/
def Event.isFailedStore : Event → Bool
  | Event.store _ _ false => true
  | _ => false

/-- The event is an exclusive store that was committed. -/
def Event.isCommit : Event → Bool
  | Event.store _ _ true => true
  | _ => false

/-- The event is an exclusive load. -/
def Event.isLoad : Event → Bool
  | Event.load _ _ => true
  | _ => false

/-- The event is an exclusive store attempt. -/
def Event.isStore : Event → Bool
  | Event.store _ _ _ => true
  | _ => false

/-- Number of exclusive stores that lost their reservation. -/
def failedStores (log : List Event) : Nat := log.countP Event.isFailedStore

/-- The value read by the last exclusive load of the log. -/
def lastRead (log : List Event) : Option Int :=
  log.foldl (fun r e => match e with
    | Event.load _ v => some v
    | _ => r) none

/-- The log of the iterations that were retried: iteration `j` read `vs[j]`,
attempted to store `f vs[j]`, lost the reservation and went round again. -/
def retryLog (m : Mode) (f : Int → Int) : List Int → List Event
  | [] => []
  | v :: vs => Event.load m v :: Event.store m (f v) false :: Event.retry :: retryLog m f vs

/-- States of the retry state machine of the design. -/
inductive Phase
  | READ
  | ATTEMPT_STORE
  | RETRY
  | DONE
  deriving DecidableEq, Repr

/-- The state of the retry state machine in which an event is produced. -/
def Event.phase : Event → Phase
  | Event.load _ _ => Phase.READ
  | Event.store _ _ _ => Phase.ATTEMPT_STORE
  | Event.retry => Phase.RETRY
  | Event.done => Phase.DONE

/-- A schedule in which the reservation is lost (without a foreign store) in the
first `k` iterations and never afterwards. -/
def lostFirst (k : Nat) : Sched := fun j => if j < k then ⟨[], [Ev.clear]⟩ else quiet

/-- A schedule in which another agent stores `w` between the exclusive load and
the exclusive store of the first iteration, and nothing happens afterwards. -/
def raceOnce (w : Int) : Sched := fun j => if j = 0 then ⟨[], [Ev.write w]⟩ else quiet

/-- Log rule of `__bionic_cmpxchg`: an exclusive load of a value other than the
expected one is directly followed by the end of the loop. -/
def MismatchExits (e : Int) (a b : Event) : Prop :=
  ∀ m v, a = Event.load m v → v ≠ e → b = Event.done

/-- Log rule: the loop goes round again only directly after an exclusive store
that lost its reservation. -/
def RetryAfterLostStore (a b : Event) : Prop :=
  b = Event.retry → a.isFailedStore = true

/-- Log rule: nothing follows the end of the loop. -/
def DoneIsLast (a : Event) : Prop := a ≠ Event.done

/-- Transition rule of the retry state machine as the design states it:
READ goes to ATTEMPT-STORE, ATTEMPT-STORE goes to DONE exactly when the
reservation held and to RETRY exactly when it was lost, RETRY goes to READ,
and DONE is entered from ATTEMPT-STORE only. -/
def Machine (a b : Event) : Prop :=
  (a.phase = Phase.READ → b.phase = Phase.ATTEMPT_STORE) ∧
  (∀ m v ok, a = Event.store m v ok →
    (b.phase = Phase.DONE ↔ ok = true) ∧ (b.phase = Phase.RETRY ↔ ok = false)) ∧
  (a.phase = Phase.RETRY → b.phase = Phase.READ) ∧
  (b.phase = Phase.DONE → a.phase = Phase.ATTEMPT_STORE) ∧
  a.phase ≠ Phase.DONE

/-- Transition rule of the state machine `__bionic_cmpxchg` follows for the
expected value `e`: as `Machine`, but READ goes to ATTEMPT-STORE only when the
value read is `e` and goes to DONE otherwise. -/
def MachineCas (e : Int) (a b : Event) : Prop :=
  (∀ m v, a = Event.load m v →
    (v = e → b.phase = Phase.ATTEMPT_STORE) ∧ (v ≠ e → b.phase = Phase.DONE)) ∧
  (∀ m v ok, a = Event.store m v ok →
    (b.phase = Phase.DONE ↔ ok = true) ∧ (b.phase = Phase.RETRY ↔ ok = false)) ∧
  (a.phase = Phase.RETRY → b.phase = Phase.READ) ∧
  (b.phase = Phase.DONE →
    a.phase = Phase.ATTEMPT_STORE ∨ ∃ m v, a = Event.load m v ∧ v ≠ e) ∧
  a.phase ≠ Phase.DONE

/-! ## Several processors racing on the same word

Every thread runs one of the three primitives on the same target word. The
threads are interleaved instruction by instruction. Each thread has its own
registers and its own exclusive monitor; an exclusive store that commits
invalidates the reservations of all other threads on the word, and a thread
may lose its reservation at any time for other reasons. -/

/-- A call of one of the three primitives, with its arguments. -/
inductive Op
  | cmpxchg (old_value new_value : Int)
  | swap (new_value : Int)
  | dec
  deriving DecidableEq, Repr

/-- The assembly statement inside the loop of the called function. -/
def Op.body (b : Build) : Op → List Asm
  | Op.cmpxchg _ _ => cmpxchg_asm b
  | Op.swap _ => swap_asm b
  | Op.dec => atomic_dec_asm b

/-- The processor state in which the called function enters its loop. -/
def Op.enter (o : Op) (c : Cpu) : Cpu :=
  match o with
  | Op.cmpxchg e n => { c with old_value := e, new_value := n, log := [] }
  | Op.swap n => { c with new_value := n, log := [] }
  | Op.dec => { c with log := [] }

/-- The value the called function returns after its loop. -/
def Op.result (o : Op) (c : Cpu) : Int :=
  match o with
  | Op.cmpxchg e _ => if c.prev ≠ e then 1 else 0
  | Op.swap _ => c.prev
  | Op.dec => c.prev

/-- The transition of the target word the design assigns to the operation when
it is performed atomically on a word holding `m` (sections 4.3 to 4.5). -/
def Op.atomic (o : Op) (m : Int) : Int :=
  match o with
  | Op.cmpxchg e n => if m = e then n else m
  | Op.swap n => n
  | Op.dec => wrap32 (m - 1)

/-- The value the design has the operation return when it is performed
atomically on a word holding `m`. -/
def Op.reply (o : Op) (m : Int) : Int :=
  match o with
  | Op.cmpxchg e _ => if m = e then 0 else 1
  | Op.swap _ => m
  | Op.dec => m

/-- One thread inside a call. The `mem` field of `cpu` is the target word as
this thread saw it at its latest instruction. -/
structure Thread where
  op : Op
  cpu : Cpu
  /-- the instructions of the current iteration that are still to be executed -/
  rest : List Asm
  /-- the return value, once the function has returned -/
  ret : Option Int
  /-- the time of the latest exclusive load of this thread -/
  resAt : Nat
  deriving DecidableEq, Repr

/-- A committed exclusive store. -/
structure Commit where
  /-- index of the thread -/
  tid : Nat
  op : Op
  /-- time of the exclusive load that took the reservation -/
  loaded : Nat
  /-- time of the committed exclusive store -/
  stored : Nat
  /-- the target word just before the store -/
  seen : Int
  deriving DecidableEq, Repr

/-- The shared word, the clock, the threads and the committed stores, oldest
first. -/
structure World where
  mem : Int
  now : Nat
  threads : List Thread
  hist : List Commit
  deriving DecidableEq, Repr

/-- The instruction is an exclusive load. -/
def Asm.isLdrex : Asm → Bool
  | Asm.ldrex _ => true
  | _ => false

/-- The instruction is an exclusive store. -/
def Asm.isStrex : Asm → Bool
  | Asm.strex _ _ _ => true
  | _ => false

/-- Executing the instruction in state `c` commits an exclusive store: it is an
exclusive store whose condition passes while the reservation is held. -/
def commits (i : Asm) (c : Cpu) : Bool :=
  match i with
  | Asm.strex k _ _ => k.holds c && c.excl
  | _ => false

/-- One step of a thread when the target word holds `mem` at time `now`: the
next instruction of the iteration, or the loop condition when the assembly
statement is finished. Returns the thread, the target word and whether an
exclusive store was committed. A thread that has returned does nothing. -/
def Thread.step (b : Build) (T : Thread) (mem : Int) (now : Nat) : Thread × Int × Bool :=
  match T.ret with
  | some _ => (T, mem, false)
  | none =>
    match T.rest with
    | [] =>
      if T.cpu.status ≠ 0 then
        ({ T with cpu := { T.cpu with log := T.cpu.log ++ [Event.retry] },
                  rest := T.op.body b }, mem, false)
      else
        ({ T with cpu := { T.cpu with log := T.cpu.log ++ [Event.done] },
                  ret := some (T.op.result T.cpu) }, mem, false)
    | i :: rest =>
      ({ T with cpu := exec quiet i { T.cpu with mem := mem },
                rest := rest,
                resAt := if i.isLdrex then now else T.resAt },
       (exec quiet i { T.cpu with mem := mem }).mem,
       commits i { T.cpu with mem := mem })

/-- Another processor committed a store to the word: the reservation is lost. -/
def Thread.clearExcl (T : Thread) : Thread := { T with cpu := { T.cpu with excl := false } }

/-- One step of the machine: thread `t` makes a step. -/
def World.step (b : Build) (w : World) (t : Nat) : World :=
  match w.threads[t]? with
  | none => w
  | some T =>
    { mem := (T.step b w.mem w.now).2.1,
      now := w.now + 1,
      threads :=
        (if (T.step b w.mem w.now).2.2 then w.threads.map Thread.clearExcl
          else w.threads).set t (T.step b w.mem w.now).1,
      hist :=
        if (T.step b w.mem w.now).2.2 then
          w.hist ++ [{ tid := t, op := T.op, loaded := T.resAt, stored := w.now, seen := w.mem }]
        else w.hist }

/-- What happens next in the machine. -/
inductive Act
  /-- thread `t` makes a step -/
  | run (t : Nat)
  /-- thread `t` loses its reservation without any store to the word (interrupt,
  context switch) -/
  | lose (t : Nat)
  deriving DecidableEq, Repr

/-- Thread `t` loses its reservation. -/
def World.lose (w : World) (t : Nat) : World :=
  match w.threads[t]? with
  | none => w
  | some T => { w with threads := w.threads.set t T.clearExcl }

/-- One event of the machine. -/
def World.act (b : Build) (w : World) : Act → World
  | Act.run t => World.step b w t
  | Act.lose t => World.lose w t

/-- The machine after the events `sched`, in this order. -/
def World.run (b : Build) (sched : List Act) (w : World) : World :=
  sched.foldl (World.act b) w

/-- A thread at the entry of its call; `c` holds whatever the registers and the
monitor held before. -/
def Thread.start (b : Build) (o : Op) (c : Cpu) : Thread :=
  { op := o, cpu := o.enter c, rest := o.body b, ret := none, resAt := 0 }

/-- The machine at the start: the word holds `v`, and thread `j` calls the
operation `(calls.get j).1` from the register state `(calls.get j).2`. -/
def World.start (b : Build) (v : Int) (calls : List (Op × Cpu)) : World :=
  { mem := v, now := 0, threads := calls.map fun oc => Thread.start b oc.1 oc.2, hist := [] }

/-- The target word after the committed stores `hist` are applied one after the
other, as atomic operations, to a word holding `v`; `none` when some operation
did not see the value its predecessors left. -/
def replay (v : Int) : List Commit → Option Int
  | [] => some v
  | h :: hs => if h.seen = v then replay (h.op.atomic v) hs else none

/-- Number of committed exclusive stores in a log. -/
def commitCount (log : List Event) : Nat := log.countP Event.isCommit

/-- The instruction belongs to the mode-switch shim or is a directive: it
touches neither the target word, nor the monitor, nor an operand register. -/
def Asm.isShim : Asm → Bool
  | Asm.adr Reg.r3 _ _ => true
  | Asm.bx _ => true
  | Asm.align => true
  | Asm.arm => true
  | Asm.thumb => true
  | Asm.label _ => true
  | Asm.it_eq => true
  | _ => false

/-- The register an instruction writes. -/
def Asm.dest : Asm → Option Reg
  | Asm.adr rd _ _ => some rd
  | Asm.ldrex rt => some rt
  | Asm.mov rd _ => some rd
  | Asm.strex _ rd _ => some rd
  | Asm.sub rd _ _ => some rd
  | _ => none

/-- The argument registers hold the arguments of the call. -/
def ArgsOK (o : Op) (c : Cpu) : Prop :=
  match o with
  | Op.cmpxchg e n => c.old_value = e ∧ c.new_value = n
  | Op.swap n => c.new_value = n
  | Op.dec => True

/-- The state in which a thread would finish its current iteration if it ran
alone from now on, with the target word holding `m` and its reservation being
`x`. -/
def Thread.finish (T : Thread) (m : Int) (x : Bool) : Cpu :=
  execAsm quiet T.rest { T.cpu with mem := m, excl := x }

/-- The operation is a compare-and-swap that read something else than the
expected value. -/
def Mismatch (o : Op) (p : Int) : Prop := ∃ e n, o = Op.cmpxchg e n ∧ p ≠ e

/-- Invariant of one thread, relative to the content `mem` of the target word
and to `won`, the value its committed store replaced, if it has committed. -/
def Good (b : Build) (T : Thread) (mem : Int) (won : Option Int) : Prop :=
  T.rest <:+ T.op.body b ∧ ArgsOK T.op T.cpu ∧
  (T.ret = none →
    (∀ m x, (x = true → T.cpu.excl = true ∧ m = mem) →
      ((commitCount (T.finish m x).log = commitCount T.cpu.log ∧ (T.finish m x).mem = m) ∨
       (commitCount (T.finish m x).log = commitCount T.cpu.log + 1 ∧
        (T.finish m x).mem = T.op.atomic m ∧ (T.finish m x).prev = m ∧
        (T.finish m x).status = 0 ∧ won = none ∧
        ∀ e n, T.op = Op.cmpxchg e n → m = e)) ∧
      ((T.finish m x).status = 0 →
        won.isSome = true ∨ commitCount (T.finish m x).log = commitCount T.cpu.log + 1 ∨
          Mismatch T.op (T.finish m x).prev)) ∧
    (∀ v, won = some v → T.rest.all Asm.isShim = true ∧ T.cpu.status = 0 ∧ T.cpu.prev = v)) ∧
  (∀ r, T.ret = some r →
    (∃ v, won = some v ∧ r = T.op.reply v) ∨ (won = none ∧ Mismatch T.op T.cpu.prev ∧ r = 1))

/-- Static check of an assembly statement: no instruction writes an argument
register, and what follows an exclusive store is shim only, and an exclusive
store writes its result to `status`, and no exclusive load follows an
exclusive load. -/
def wellShaped (body : List Asm) : Bool :=
  body.all (fun i => i.dest != some Reg.old_value && i.dest != some Reg.new_value) &&
  body.tails.all (fun l =>
    match l with
    | Asm.strex _ rd _ :: rest => rest.all Asm.isShim && rd == Reg.status
    | Asm.ldrex rt :: rest => rest.all (fun i => !i.isLdrex) && rt == Reg.prev
    | _ => true)

/-- The value the committed store of thread `u` replaced, when thread `u` has
committed a store. -/
def wonOf : List Commit → Nat → Option Int
  | [], _ => none
  | h :: hs, u => if h.tid = u then some h.seen else wonOf hs u

/-- Invariant of the machine started with the word holding `v`. -/
structure Inv (b : Build) (v : Int) (ops : List Op) (w : World) : Prop where
  replayed : replay v w.hist = some w.mem
  good : ∀ (u : Nat) (T : Thread), w.threads[u]? = some T → Good b T w.mem (wonOf w.hist u)
  once : (w.hist.map fun h => h.tid).Nodup
  past : ∀ h ∈ w.hist, h.stored < w.now ∧ h.loaded ≤ h.stored
  apart : w.hist.Pairwise fun h1 h2 => h1.stored < h2.loaded
  fresh : ∀ (u : Nat) (T : Thread), w.threads[u]? = some T →
    T.resAt ≤ w.now ∧ (T.cpu.excl = true → ∀ h ∈ w.hist, h.stored < T.resAt)
  ops_eq : w.threads.map (fun T => T.op) = ops
  owner : ∀ h ∈ w.hist, ops[h.tid]? = some h.op
  matched : ∀ h ∈ w.hist, ∀ e n, h.op = Op.cmpxchg e n → h.seen = e

/-! ## One loop iteration of each primitive -/

theorem applyEvs_eq (es : List Ev) (c : Cpu) :
    applyEvs es c = { c with mem := envMem es c.mem, excl := envExcl es c.excl } := by
  induction es generalizing c with
  | nil => simp [applyEvs, envMem, envExcl]
  | cons e es ih =>
    have h : applyEvs (e :: es) c = applyEvs es (e.apply c) := rfl
    rw [h, ih]
    cases e <;> simp [Ev.apply, envMem, envExcl]

theorem envMem_of_all_clear (es : List Ev) (m : Int) (h : es.all Ev.isClear = true) :
    envMem es m = m := by
  induction es generalizing m with
  | nil => rfl
  | cons e es ih =>
    cases e with
    | write w => simp [Ev.isClear] at h
    | clear =>
      have h2 : es.all Ev.isClear = true := by simpa [Ev.isClear] using h
      simpa [envMem] using ih m h2

theorem cmpxchg_iter (b : Build) (env : IterEnv) (c : Cpu) :
    execAsm env (cmpxchg_asm b) c =
      if envMem env.pre c.mem = c.old_value then
        if env.mid = [] then
          { c with mem := c.new_value, excl := false,
                   mode := if b.thumb1 then Mode.thumb else c.mode,
                   z := true, prev := envMem env.pre c.mem, status := 0,
                   r3 := if b.thumb1 then labelAddr 6 + 1 else c.r3,
                   log := c.log ++
                     [Event.load (if b.thumb1 then Mode.arm else c.mode) (envMem env.pre c.mem),
                      Event.store (if b.thumb1 then Mode.arm else c.mode) c.new_value true] }
        else
          { c with mem := envMem env.mid (envMem env.pre c.mem), excl := false,
                   mode := if b.thumb1 then Mode.thumb else c.mode,
                   z := true, prev := envMem env.pre c.mem, status := 1,
                   r3 := if b.thumb1 then labelAddr 6 + 1 else c.r3,
                   log := c.log ++
                     [Event.load (if b.thumb1 then Mode.arm else c.mode) (envMem env.pre c.mem),
                      Event.store (if b.thumb1 then Mode.arm else c.mode) c.new_value false] }
      else
        { c with mem := envMem env.mid (envMem env.pre c.mem), excl := envExcl env.mid true,
                 mode := if b.thumb1 then Mode.thumb else c.mode,
                 z := false, prev := envMem env.pre c.mem, status := 0,
                 r3 := if b.thumb1 then labelAddr 6 + 1 else c.r3,
                 log := c.log ++
                   [Event.load (if b.thumb1 then Mode.arm else c.mode) (envMem env.pre c.mem)] } := by
  rcases b with ⟨_ | _, _ | _⟩ <;>
  by_cases h1 : envMem env.pre c.mem = c.old_value <;>
  by_cases h2 : env.mid = [] <;>
  simp [cmpxchg_asm, __ATOMIC_SWITCH_TO_ARM, __ATOMIC_SWITCH_TO_THUMB, Build.thumb1, execAsm,
    exec, applyEvs_eq, Cpu.set, Cpu.get, Cond.holds, envExcl, labelAddr, h1, h2]

theorem swap_iter (b : Build) (env : IterEnv) (c : Cpu) :
    execAsm env (swap_asm b) c =
      if env.mid = [] then
        { c with mem := c.new_value, excl := false, prev := envMem env.pre c.mem, status := 0,
                 log := c.log ++ [Event.load c.mode (envMem env.pre c.mem),
                                  Event.store c.mode c.new_value true] }
      else
        { c with mem := envMem env.mid (envMem env.pre c.mem), excl := false,
                 prev := envMem env.pre c.mem, status := 1,
                 log := c.log ++ [Event.load c.mode (envMem env.pre c.mem),
                                  Event.store c.mode c.new_value false] } := by
  by_cases h2 : env.mid = [] <;>
  simp [swap_asm, execAsm, exec, applyEvs_eq, Cpu.set, Cpu.get, Cond.holds, envExcl, h2]

theorem atomic_dec_iter (b : Build) (env : IterEnv) (c : Cpu) :
    execAsm env (atomic_dec_asm b) c =
      if env.mid = [] then
        { c with mem := wrap32 (envMem env.pre c.mem - 1), excl := false,
                 prev := envMem env.pre c.mem, tmp := wrap32 (envMem env.pre c.mem - 1),
                 status := 0,
                 log := c.log ++ [Event.load c.mode (envMem env.pre c.mem),
                                  Event.store c.mode (wrap32 (envMem env.pre c.mem - 1)) true] }
      else
        { c with mem := envMem env.mid (envMem env.pre c.mem), excl := false,
                 prev := envMem env.pre c.mem, tmp := wrap32 (envMem env.pre c.mem - 1),
                 status := 1,
                 log := c.log ++ [Event.load c.mode (envMem env.pre c.mem),
                                  Event.store c.mode (wrap32 (envMem env.pre c.mem - 1)) false] } := by
  by_cases h2 : env.mid = [] <;>
  simp [atomic_dec_asm, execAsm, exec, applyEvs_eq, Cpu.set, Cpu.get, Cond.holds, envExcl, h2]

/-! ## The retry loop -/

theorem doWhile_succ (body : List Asm) (s : Sched) (fuel i : Nat) (c : Cpu) :
    doWhile body s (fuel + 1) i c =
      if (execAsm (s i) body c).status ≠ 0 then
        doWhile body s fuel (i + 1)
          { execAsm (s i) body c with log := (execAsm (s i) body c).log ++ [Event.retry] }
      else
        some { execAsm (s i) body c with log := (execAsm (s i) body c).log ++ [Event.done] } :=
  rfl

/-- Invariant rule for the retry loop: `P i` holds at the head of iteration `i`,
`Q i` holds of the state in which the loop is left after iteration `i`. -/
theorem doWhile_inv (body : List Asm) (s : Sched) (P Q : Nat → Cpu → Prop)
    (hstep : ∀ i c, P i c →
      ((execAsm (s i) body c).status ≠ 0 →
        P (i + 1) { execAsm (s i) body c with
                      log := (execAsm (s i) body c).log ++ [Event.retry] }) ∧
      ((execAsm (s i) body c).status = 0 →
        Q i { execAsm (s i) body c with
                log := (execAsm (s i) body c).log ++ [Event.done] })) :
    ∀ fuel i c r, P i c → doWhile body s fuel i c = some r → ∃ k, i ≤ k ∧ k < i + fuel ∧ Q k r := by
  intro fuel
  induction fuel with
  | zero => intro i c r _ h; simp [doWhile] at h
  | succ fuel ih =>
    intro i c r hP h
    rw [doWhile_succ] at h
    by_cases hs : (execAsm (s i) body c).status = 0
    · rw [if_neg (not_not.mpr hs)] at h
      cases h
      exact ⟨i, le_refl _, by omega, (hstep i c hP).2 hs⟩
    · rw [if_pos hs] at h
      obtain ⟨k, h1, h2, h3⟩ := ih (i + 1) _ r ((hstep i c hP).1 hs) h
      exact ⟨k, by omega, by omega, h3⟩

/-- More fuel does not change a result. -/
theorem doWhile_mono (body : List Asm) (s : Sched) :
    ∀ fuel fuel2 i c r, fuel ≤ fuel2 → doWhile body s fuel i c = some r →
      doWhile body s fuel2 i c = some r := by
  intro fuel
  induction fuel with
  | zero => intro fuel2 i c r _ h; simp [doWhile] at h
  | succ fuel ih =>
    intro fuel2 i c r hle h
    obtain ⟨f2, rfl⟩ : ∃ f2, fuel2 = f2 + 1 := ⟨fuel2 - 1, by omega⟩
    rw [doWhile_succ] at h ⊢
    by_cases hs : (execAsm (s i) body c).status = 0
    · rw [if_neg (not_not.mpr hs)] at h ⊢
      exact h
    · rw [if_pos hs] at h ⊢
      exact ih f2 _ _ r (by omega) h

/-- The loop is left once an iteration ends with `status = 0`; this happens at the
latest in iteration `N` when every iteration from `N` on ends that way. -/
theorem doWhile_terminates (body : List Asm) (s : Sched) (N : Nat)
    (hN : ∀ i c, N ≤ i → (execAsm (s i) body c).status = 0) :
    ∀ d i c, N ≤ i + d → ∃ r, doWhile body s (d + 1) i c = some r := by
  intro d
  induction d with
  | zero =>
    intro i c h
    rw [doWhile_succ, if_neg (not_not.mpr (hN i c (by omega)))]
    exact ⟨_, rfl⟩
  | succ d ih =>
    intro i c h
    rw [doWhile_succ]
    by_cases hs : (execAsm (s i) body c).status = 0
    · rw [if_neg (not_not.mpr hs)]
      exact ⟨_, rfl⟩
    · rw [if_pos hs]
      exact ih (i + 1) _ (by omega)

theorem noWrites_pre (e : IterEnv) (m : Int) (h : e.noWrites = true) : envMem e.pre m = m :=
  envMem_of_all_clear _ _ (by simp [IterEnv.noWrites] at h; simpa using h.1)

theorem noWrites_mid (e : IterEnv) (m : Int) (h : e.noWrites = true) : envMem e.mid m = m :=
  envMem_of_all_clear _ _ (by simp [IterEnv.noWrites] at h; simpa using h.2)

theorem retryLog_snoc (m : Mode) (f : Int → Int) (vs : List Int) (v : Int) :
    retryLog m f (vs ++ [v]) =
      retryLog m f vs ++ [Event.load m v, Event.store m (f v) false, Event.retry] := by
  induction vs with
  | nil => rfl
  | cons a vs ih => simp [retryLog, ih]

/-! ## Runs without foreign writes: `k` lost reservations, then one that holds -/

theorem cmpxchg_run (b : Build) (s : Sched) (n : Int) :
    ∀ k fuel i c, c.new_value = n → c.old_value = c.mem →
      (∀ j, j < k → (s (i + j)).noWrites = true ∧ (s (i + j)).mid ≠ []) →
      (s (i + k)).noWrites = true → (s (i + k)).mid = [] → k < fuel →
      ∃ r, doWhile (cmpxchg_asm b) s fuel i c = some r ∧ r.prev = c.mem ∧ r.mem = n ∧
        iterations r.log = iterations c.log + (k + 1) ∧
        failedStores r.log = failedStores c.log + k := by
  intro k
  induction k with
  | zero =>
    intro fuel i c hn ho _ hw hm hf
    obtain ⟨f, rfl⟩ : ∃ f, fuel = f + 1 := ⟨fuel - 1, by omega⟩
    have hw2 : (s i).noWrites = true := by simpa using hw
    have hm2 : (s i).mid = [] := by simpa using hm
    rw [doWhile_succ, cmpxchg_iter]
    simp [noWrites_pre _ _ hw2, ho, hm2, hn, iterations, failedStores, List.countP_append,
      List.countP_cons, Event.isFailedStore]
  | succ k ih =>
    intro fuel i c hn ho hlost hw hm hf
    obtain ⟨f, rfl⟩ : ∃ f, fuel = f + 1 := ⟨fuel - 1, by omega⟩
    have h0 := hlost 0 (by omega)
    simp only [Nat.add_zero] at h0
    have hpre : envMem (s i).pre c.mem = c.old_value := by rw [noWrites_pre _ _ h0.1, ho]
    have hc1 := cmpxchg_iter b (s i) c
    rw [if_pos hpre, if_neg h0.2, noWrites_pre _ _ h0.1, noWrites_mid _ _ h0.1] at hc1
    rw [doWhile_succ]
    generalize execAsm (s i) (cmpxchg_asm b) c = c1 at hc1 ⊢
    rw [if_pos (by rw [hc1]; simp)]
    obtain ⟨r, h1, h2, h3, h4, h5⟩ := ih f (i + 1)
      { c1 with log := c1.log ++ [Event.retry] }
      (by rw [hc1]; exact hn) (by rw [hc1]; exact ho)
      (fun j hj => by have := hlost (j + 1) (by omega); rwa [show i + 1 + j = i + (j + 1) by omega])
      (by rwa [show i + 1 + k = i + (k + 1) by omega])
      (by rwa [show i + 1 + k = i + (k + 1) by omega]) (by omega)
    refine ⟨r, h1, ?_, h3, ?_, ?_⟩
    · rw [h2, hc1]
    · rw [h4, hc1]; simp [iterations, List.countP_append, List.countP_cons]; omega
    · rw [h5, hc1]
      simp [failedStores, List.countP_append, List.countP_cons, Event.isFailedStore]; omega

theorem swap_run (b : Build) (s : Sched) (n : Int) :
    ∀ k fuel i c, c.new_value = n →
      (∀ j, j < k → (s (i + j)).noWrites = true ∧ (s (i + j)).mid ≠ []) →
      (s (i + k)).noWrites = true → (s (i + k)).mid = [] → k < fuel →
      ∃ r, doWhile (swap_asm b) s fuel i c = some r ∧ r.prev = c.mem ∧ r.mem = n ∧
        iterations r.log = iterations c.log + (k + 1) ∧
        failedStores r.log = failedStores c.log + k := by
  intro k
  induction k with
  | zero =>
    intro fuel i c hn _ hw hm hf
    obtain ⟨f, rfl⟩ : ∃ f, fuel = f + 1 := ⟨fuel - 1, by omega⟩
    have hw2 : (s i).noWrites = true := by simpa using hw
    have hm2 : (s i).mid = [] := by simpa using hm
    rw [doWhile_succ, swap_iter]
    simp [noWrites_pre _ _ hw2, hm2, hn, iterations, failedStores, List.countP_append,
      List.countP_cons, Event.isFailedStore]
  | succ k ih =>
    intro fuel i c hn hlost hw hm hf
    obtain ⟨f, rfl⟩ : ∃ f, fuel = f + 1 := ⟨fuel - 1, by omega⟩
    have h0 := hlost 0 (by omega)
    simp only [Nat.add_zero] at h0
    have hc1 := swap_iter b (s i) c
    rw [if_neg h0.2, noWrites_pre _ _ h0.1, noWrites_mid _ _ h0.1] at hc1
    rw [doWhile_succ]
    generalize execAsm (s i) (swap_asm b) c = c1 at hc1 ⊢
    rw [if_pos (by rw [hc1]; simp)]
    obtain ⟨r, h1, h2, h3, h4, h5⟩ := ih f (i + 1)
      { c1 with log := c1.log ++ [Event.retry] }
      (by rw [hc1]; exact hn)
      (fun j hj => by have := hlost (j + 1) (by omega); rwa [show i + 1 + j = i + (j + 1) by omega])
      (by rwa [show i + 1 + k = i + (k + 1) by omega])
      (by rwa [show i + 1 + k = i + (k + 1) by omega]) (by omega)
    refine ⟨r, h1, ?_, h3, ?_, ?_⟩
    · rw [h2, hc1]
    · rw [h4, hc1]; simp [iterations, List.countP_append, List.countP_cons]; omega
    · rw [h5, hc1]
      simp [failedStores, List.countP_append, List.countP_cons, Event.isFailedStore]; omega

theorem atomic_dec_run (b : Build) (s : Sched) :
    ∀ k fuel i c,
      (∀ j, j < k → (s (i + j)).noWrites = true ∧ (s (i + j)).mid ≠ []) →
      (s (i + k)).noWrites = true → (s (i + k)).mid = [] → k < fuel →
      ∃ r, doWhile (atomic_dec_asm b) s fuel i c = some r ∧ r.prev = c.mem ∧
        r.mem = wrap32 (c.mem - 1) ∧
        iterations r.log = iterations c.log + (k + 1) ∧
        failedStores r.log = failedStores c.log + k := by
  intro k
  induction k with
  | zero =>
    intro fuel i c _ hw hm hf
    obtain ⟨f, rfl⟩ : ∃ f, fuel = f + 1 := ⟨fuel - 1, by omega⟩
    have hw2 : (s i).noWrites = true := by simpa using hw
    have hm2 : (s i).mid = [] := by simpa using hm
    rw [doWhile_succ, atomic_dec_iter]
    simp [noWrites_pre _ _ hw2, hm2, iterations, failedStores, List.countP_append,
      List.countP_cons, Event.isFailedStore]
  | succ k ih =>
    intro fuel i c hlost hw hm hf
    obtain ⟨f, rfl⟩ : ∃ f, fuel = f + 1 := ⟨fuel - 1, by omega⟩
    have h0 := hlost 0 (by omega)
    simp only [Nat.add_zero] at h0
    have hc1 := atomic_dec_iter b (s i) c
    rw [if_neg h0.2, noWrites_pre _ _ h0.1, noWrites_mid _ _ h0.1] at hc1
    rw [doWhile_succ]
    generalize execAsm (s i) (atomic_dec_asm b) c = c1 at hc1 ⊢
    rw [if_pos (by rw [hc1]; simp)]
    obtain ⟨r, h1, h2, h3, h4, h5⟩ := ih f (i + 1)
      { c1 with log := c1.log ++ [Event.retry] }
      (fun j hj => by have := hlost (j + 1) (by omega); rwa [show i + 1 + j = i + (j + 1) by omega])
      (by rwa [show i + 1 + k = i + (k + 1) by omega])
      (by rwa [show i + 1 + k = i + (k + 1) by omega]) (by omega)
    refine ⟨r, h1, ?_, ?_, ?_, ?_⟩
    · rw [h2, hc1]
    · rw [h3, hc1]
    · rw [h4, hc1]; simp [iterations, List.countP_append, List.countP_cons]; omega
    · rw [h5, hc1]
      simp [failedStores, List.countP_append, List.countP_cons, Event.isFailedStore]; omega

/-! ## Shape of the event log under arbitrary foreign events -/

/-- Every run of the `__bionic_cmpxchg` loop that ends, ends in some iteration `k`:
the iterations before it read the expected value and lost their store, the last
one either committed the store of the new value or read another value and did
not attempt a store. -/
theorem cmpxchg_shape (b : Build) (s : Sched) (e n : Int) (c : Cpu) (fuel : Nat) (r : Cpu)
    (h : doWhile (cmpxchg_asm b) s fuel 0
      { c with old_value := e, new_value := n, log := [] } = some r) :
    ∃ k, k < fuel ∧ (∀ j, j < k → (s j).mid ≠ []) ∧ r.status = 0 ∧
      ((r.prev = e ∧ r.mem = n ∧ (s k).mid = [] ∧
          r.log = retryLog (if b.thumb1 then Mode.arm else c.mode) (fun _ => n)
              (List.replicate k e) ++
            [Event.load (if b.thumb1 then Mode.arm else c.mode) e,
             Event.store (if b.thumb1 then Mode.arm else c.mode) n true, Event.done]) ∨
       (r.prev ≠ e ∧
          r.log = retryLog (if b.thumb1 then Mode.arm else c.mode) (fun _ => n)
              (List.replicate k e) ++
            [Event.load (if b.thumb1 then Mode.arm else c.mode) r.prev, Event.done])) := by
  have key := doWhile_inv (cmpxchg_asm b) s
    (fun i x => x.old_value = e ∧ x.new_value = n ∧
      (if b.thumb1 then Mode.arm else x.mode) = (if b.thumb1 then Mode.arm else c.mode) ∧
      x.log = retryLog (if b.thumb1 then Mode.arm else c.mode) (fun _ => n) (List.replicate i e) ∧
      ∀ j, j < i → (s j).mid ≠ [])
    (fun k x => (∀ j, j < k → (s j).mid ≠ []) ∧ x.status = 0 ∧
      ((x.prev = e ∧ x.mem = n ∧ (s k).mid = [] ∧
          x.log = retryLog (if b.thumb1 then Mode.arm else c.mode) (fun _ => n)
              (List.replicate k e) ++
            [Event.load (if b.thumb1 then Mode.arm else c.mode) e,
             Event.store (if b.thumb1 then Mode.arm else c.mode) n true, Event.done]) ∨
       (x.prev ≠ e ∧
          x.log = retryLog (if b.thumb1 then Mode.arm else c.mode) (fun _ => n)
              (List.replicate k e) ++
            [Event.load (if b.thumb1 then Mode.arm else c.mode) x.prev, Event.done])))
    (by
      intro i x ⟨h1, h2, h3, h4, h5⟩
      have hc1 := cmpxchg_iter b (s i) x
      generalize execAsm (s i) (cmpxchg_asm b) x = c1 at hc1 ⊢
      by_cases hp : envMem (s i).pre x.mem = x.old_value
      · by_cases hm : (s i).mid = []
        · rw [if_pos hp, if_pos hm] at hc1
          subst hc1
          refine ⟨fun hs => absurd rfl hs, fun _ => ⟨h5, rfl, Or.inl ⟨?_, ?_, hm, ?_⟩⟩⟩
          · simp only [hp, h1]
          · simp only [h2]
          · simp only [h4, h3, h2, hp, h1, List.append_assoc, List.cons_append, List.nil_append]
        · rw [if_pos hp, if_neg hm] at hc1
          subst hc1
          refine ⟨fun _ => ⟨h1, h2, ?_, ?_, ?_⟩, fun hs => ?_⟩
          · cases hb : b.thumb1 <;> simp [hb] at h3 ⊢
            exact h3
          · simp only [h4, h3, h2, hp, h1, List.replicate_succ', retryLog_snoc,
              List.append_assoc, List.cons_append, List.nil_append]
          · intro j hj
            rcases Nat.lt_succ_iff_lt_or_eq.mp hj with hj | rfl
            · exact h5 j hj
            · exact hm
          · simp at hs
      · rw [if_neg hp] at hc1
        subst hc1
        refine ⟨fun hs => absurd rfl hs, fun _ => ⟨h5, rfl, Or.inr ⟨?_, ?_⟩⟩⟩
        · simp only [← h1]; exact hp
        · simp only [h4, h3, List.append_assoc, List.cons_append, List.nil_append])
    fuel 0 { c with old_value := e, new_value := n, log := [] } r
    ⟨rfl, rfl, rfl, rfl, fun j hj => absurd hj (Nat.not_lt_zero j)⟩ h
  obtain ⟨k, _, hk, hq1, hq2, hq3⟩ := key
  exact ⟨k, by omega, hq1, hq2, hq3⟩

/-- Every run of the `__bionic_swap` loop that ends, ends in some iteration `k`:
each iteration before it read a value and lost its store, the last one read
`prev` and committed the store of the new value. -/
theorem swap_shape (b : Build) (s : Sched) (n : Int) (c : Cpu) (fuel : Nat) (r : Cpu)
    (h : doWhile (swap_asm b) s fuel 0 { c with new_value := n, log := [] } = some r) :
    ∃ vs : List Int, vs.length < fuel ∧ (∀ j, j < vs.length → (s j).mid ≠ []) ∧
      (s vs.length).mid = [] ∧ r.status = 0 ∧ r.mem = n ∧
      r.log = retryLog c.mode (fun _ => n) vs ++
        [Event.load c.mode r.prev, Event.store c.mode n true, Event.done] := by
  have key := doWhile_inv (swap_asm b) s
    (fun i x => x.new_value = n ∧ x.mode = c.mode ∧ (∀ j, j < i → (s j).mid ≠ []) ∧
      ∃ vs : List Int, vs.length = i ∧ x.log = retryLog c.mode (fun _ => n) vs)
    (fun k x => (∀ j, j < k → (s j).mid ≠ []) ∧ (s k).mid = [] ∧ x.status = 0 ∧ x.mem = n ∧
      ∃ vs : List Int, vs.length = k ∧ x.log = retryLog c.mode (fun _ => n) vs ++
        [Event.load c.mode x.prev, Event.store c.mode n true, Event.done])
    (by
      intro i x ⟨h1, h2, h3, vs, h4, h5⟩
      have hc1 := swap_iter b (s i) x
      generalize execAsm (s i) (swap_asm b) x = c1 at hc1 ⊢
      by_cases hm : (s i).mid = []
      · rw [if_pos hm] at hc1
        subst hc1
        refine ⟨fun hs => absurd rfl hs, fun _ => ⟨h3, hm, rfl, h1, vs, h4, ?_⟩⟩
        simp only [h5, h2, h1, List.append_assoc, List.cons_append, List.nil_append]
      · rw [if_neg hm] at hc1
        subst hc1
        refine ⟨fun _ => ⟨h1, h2, ?_, vs ++ [envMem (s i).pre x.mem], ?_, ?_⟩, fun hs => ?_⟩
        · intro j hj
          rcases Nat.lt_succ_iff_lt_or_eq.mp hj with hj | rfl
          · exact h3 j hj
          · exact hm
        · simp [h4]
        · simp only [h5, h2, h1, retryLog_snoc, List.append_assoc, List.cons_append,
            List.nil_append]
        · simp at hs)
    fuel 0 { c with new_value := n, log := [] } r
    ⟨rfl, rfl, fun j hj => absurd hj (Nat.not_lt_zero j), [], rfl, rfl⟩ h
  obtain ⟨k, _, hk, hq1, hq2, hq3, hq4, vs, hq5, hq6⟩ := key
  subst hq5
  exact ⟨vs, by omega, hq1, hq2, hq3, hq4, hq6⟩

/-- Every run of the `__bionic_atomic_dec` loop that ends, ends in some iteration
`k`: each iteration before it read a value and lost its store, the last one read
`prev` and committed the store of `prev - 1` reduced to 32 bits. -/
theorem atomic_dec_shape (b : Build) (s : Sched) (c : Cpu) (fuel : Nat) (r : Cpu)
    (h : doWhile (atomic_dec_asm b) s fuel 0 { c with log := [] } = some r) :
    ∃ vs : List Int, vs.length < fuel ∧ (∀ j, j < vs.length → (s j).mid ≠ []) ∧
      (s vs.length).mid = [] ∧ r.status = 0 ∧ r.mem = wrap32 (r.prev - 1) ∧
      r.log = retryLog c.mode (fun v => wrap32 (v - 1)) vs ++
        [Event.load c.mode r.prev, Event.store c.mode (wrap32 (r.prev - 1)) true,
         Event.done] := by
  have key := doWhile_inv (atomic_dec_asm b) s
    (fun i x => x.mode = c.mode ∧ (∀ j, j < i → (s j).mid ≠ []) ∧
      ∃ vs : List Int, vs.length = i ∧ x.log = retryLog c.mode (fun v => wrap32 (v - 1)) vs)
    (fun k x => (∀ j, j < k → (s j).mid ≠ []) ∧ (s k).mid = [] ∧ x.status = 0 ∧
      x.mem = wrap32 (x.prev - 1) ∧
      ∃ vs : List Int, vs.length = k ∧
        x.log = retryLog c.mode (fun v => wrap32 (v - 1)) vs ++
          [Event.load c.mode x.prev, Event.store c.mode (wrap32 (x.prev - 1)) true,
           Event.done])
    (by
      intro i x ⟨h2, h3, vs, h4, h5⟩
      have hc1 := atomic_dec_iter b (s i) x
      generalize execAsm (s i) (atomic_dec_asm b) x = c1 at hc1 ⊢
      by_cases hm : (s i).mid = []
      · rw [if_pos hm] at hc1
        subst hc1
        refine ⟨fun hs => absurd rfl hs, fun _ => ⟨h3, hm, rfl, rfl, vs, h4, ?_⟩⟩
        simp only [h5, h2, List.append_assoc, List.cons_append, List.nil_append]
      · rw [if_neg hm] at hc1
        subst hc1
        refine ⟨fun _ => ⟨h2, ?_, vs ++ [envMem (s i).pre x.mem], ?_, ?_⟩, fun hs => ?_⟩
        · intro j hj
          rcases Nat.lt_succ_iff_lt_or_eq.mp hj with hj | rfl
          · exact h3 j hj
          · exact hm
        · simp [h4]
        · simp only [h5, h2, retryLog_snoc, List.append_assoc, List.cons_append,
            List.nil_append]
        · simp at hs)
    fuel 0 { c with log := [] } r
    ⟨rfl, fun j hj => absurd hj (Nat.not_lt_zero j), [], rfl, rfl⟩ h
  obtain ⟨k, _, hk, hq1, hq2, hq3, hq4, vs, hq5, hq6⟩ := key
  subst hq5
  exact ⟨vs, by omega, hq1, hq2, hq3, hq4, hq6⟩

/-! ## Facts about logs of the shape `retryLog ... ++ last` -/

theorem iterations_retryLog (m : Mode) (f : Int → Int) (vs : List Int) (l : List Event) :
    iterations (retryLog m f vs ++ l) = vs.length + iterations l := by
  induction vs with
  | nil => simp [retryLog]
  | cons v vs ih =>
    have : iterations (retryLog m f (v :: vs) ++ l) = iterations (retryLog m f vs ++ l) + 1 := by
      simp [retryLog, iterations, List.countP_cons]
    rw [this, ih, List.length_cons]; omega

theorem failedStores_retryLog (m : Mode) (f : Int → Int) (vs : List Int) (l : List Event) :
    failedStores (retryLog m f vs ++ l) = vs.length + failedStores l := by
  induction vs with
  | nil => simp [retryLog]
  | cons v vs ih =>
    have : failedStores (retryLog m f (v :: vs) ++ l)
        = failedStores (retryLog m f vs ++ l) + 1 := by
      simp [retryLog, failedStores, List.countP_cons, Event.isFailedStore]
    rw [this, ih, List.length_cons]; omega

theorem lastRead_append_load (l : List Event) (m : Mode) (v : Int) (l2 : List Event)
    (h : ∀ ev ∈ l2, ev.isLoad = false) :
    lastRead (l ++ Event.load m v :: l2) = some v := by
  unfold lastRead
  rw [List.foldl_append, List.foldl_cons]
  generalize List.foldl _ none l = x
  simp only
  clear x
  induction l2 with
  | nil => rfl
  | cons a l2 ih =>
    have ha := h a (List.mem_cons_self _ _)
    rw [List.foldl_cons]
    cases a with
    | load _ _ => simp [Event.isLoad] at ha
    | store _ _ _ => exact ih (fun ev hev => h ev (List.mem_cons_of_mem _ hev))
    | retry => exact ih (fun ev hev => h ev (List.mem_cons_of_mem _ hev))
    | done => exact ih (fun ev hev => h ev (List.mem_cons_of_mem _ hev))

theorem commit_not_mem_retryLog (m : Mode) (f : Int → Int) (vs : List Int) :
    ∀ ev ∈ retryLog m f vs, ev.isCommit = false := by
  induction vs with
  | nil => intro ev h; simp [retryLog] at h
  | cons v vs ih =>
    intro ev h
    simp only [retryLog, List.mem_cons] at h
    rcases h with rfl | rfl | rfl | h
    · rfl
    · rfl
    · rfl
    · exact ih ev h

/-- Adjacent events of a log `retryLog ... ++ last` are related by `R` as soon as
`R` relates the consecutive pairs of every retried iteration and the adjacent
events of `last`, which begins with a load. -/
theorem chain_retryLog (R : Event → Event → Prop) (m : Mode) (f : Int → Int)
    (hrl : ∀ v, R Event.retry (Event.load m v))
    (v0 : Int) (rest : List Event) (hlast : List.Chain' R (Event.load m v0 :: rest)) :
    ∀ vs : List Int,
      (∀ v ∈ vs, R (Event.load m v) (Event.store m (f v) false) ∧
        R (Event.store m (f v) false) Event.retry) →
      List.Chain' R (retryLog m f vs ++ Event.load m v0 :: rest) := by
  intro vs
  induction vs with
  | nil => intro _; simpa [retryLog] using hlast
  | cons v vs ih =>
    intro hv
    have hv0 := hv v (List.mem_cons_self _ _)
    have ih2 := ih (fun w hw => hv w (List.mem_cons_of_mem _ hw))
    simp only [retryLog, List.cons_append, List.chain'_cons]
    refine ⟨hv0.1, hv0.2, ?_⟩
    cases vs with
    | nil => simpa [retryLog, List.chain'_cons] using ⟨hrl v0, hlast⟩
    | cons w ws =>
      simp only [retryLog, List.cons_append, List.chain'_cons] at ih2 ⊢
      exact ⟨hrl w, ih2⟩

theorem head_retryLog (m : Mode) (f : Int → Int) (vs : List Int) (v0 : Int)
    (rest : List Event) :
    ∃ v, (retryLog m f vs ++ Event.load m v0 :: rest).head? = some (Event.load m v) := by
  cases vs with
  | nil => exact ⟨v0, rfl⟩
  | cons w ws => exact ⟨w, rfl⟩

/-! ## Contracts of the three primitives -/

theorem wrap32_spec (x : Int) :
    INT32_MIN ≤ wrap32 x ∧ wrap32 x ≤ INT32_MAX ∧ (wrap32 x - x) % 4294967296 = 0 := by
  unfold wrap32 INT32_MIN INT32_MAX
  omega

theorem wrap32_pred (v : Int) (h1 : INT32_MIN ≤ v) (h2 : v ≤ INT32_MAX) :
    (v = INT32_MIN → wrap32 (v - 1) = INT32_MAX) ∧ (v ≠ INT32_MIN → wrap32 (v - 1) = v - 1) := by
  unfold wrap32 INT32_MIN INT32_MAX at *
  omega

/-- C1: when the target word holds the expected value `v`, no other agent writes
it, and the exclusive store loses its reservation in the first `k` iterations
and holds it in iteration `k`, then with any fuel above `k` the call
`__bionic_cmpxchg(v, n, &target)` returns 0 and the target word holds `n`
afterwards; it took `k + 1` iterations. -/
theorem cmpxchg_match_returns_zero (b : Build) (s : Sched) (k fuel : Nat) (n : Int) (c : Cpu)
    (hw : ∀ j, j ≤ k → (s j).noWrites = true)
    (hlost : ∀ j, j < k → (s j).mid ≠ [])
    (hheld : (s k).mid = []) (hfuel : k < fuel) :
    ∃ r, __bionic_cmpxchg b s fuel c.mem n c = some (0, r) ∧ r.mem = n ∧
      iterations r.log = k + 1 := by
  obtain ⟨r, h1, h2, h3, h4, _⟩ := cmpxchg_run b s n k fuel 0
    { c with old_value := c.mem, new_value := n, log := [] } rfl rfl
    (fun j hj => by rw [Nat.zero_add]; exact ⟨hw j (by omega), hlost j hj⟩)
    (by rw [Nat.zero_add]; exact hw k (le_refl _)) (by rw [Nat.zero_add]; exact hheld) hfuel
  refine ⟨r, ?_, h3, ?_⟩
  · unfold __bionic_cmpxchg
    rw [h1]
    simp only [Option.map_some', h2]
    simp
  · rw [h4]; simp [iterations]

theorem cmpxchg_match_returns_zero_witness :
    (__bionic_cmpxchg ⟨false, false⟩ (lostFirst 2) 3 5 10 (entry ⟨false, false⟩ 5)).map
      (fun r => (r.1, r.2.mem, iterations r.2.log)) = some (0, 10, 3) := by
  obtain ⟨r, h1, h2, h3⟩ := cmpxchg_match_returns_zero ⟨false, false⟩ (lostFirst 2) 2 3 10
    (entry ⟨false, false⟩ 5) (by decide) (by decide) (by decide) (by decide)
  have h1b : __bionic_cmpxchg ⟨false, false⟩ (lostFirst 2) 3 5 10 (entry ⟨false, false⟩ 5)
      = some (0, r) := h1
  rw [h1b]
  simp [h2, h3]

/-- C2: when the target word holds `v`, the expected value `e` differs from `v`
and no other agent writes the target during the first iteration, then whatever
the state of the reservation at entry and whatever reservation losses occur,
`__bionic_cmpxchg(e, n, &target)` returns 1 with any positive fuel, the target
word still holds `v`, and the call attempted no store in its single iteration. -/
theorem cmpxchg_mismatch_returns_one (b : Build) (s : Sched) (fuel : Nat) (e n : Int) (c : Cpu)
    (hne : e ≠ c.mem) (hw : (s 0).noWrites = true) (hfuel : 0 < fuel) :
    ∃ r, __bionic_cmpxchg b s fuel e n c = some (1, r) ∧ r.mem = c.mem ∧
      iterations r.log = 1 ∧ (∀ ev ∈ r.log, ev.isStore = false) := by
  obtain ⟨f, rfl⟩ : ∃ f, fuel = f + 1 := ⟨fuel - 1, by omega⟩
  have hpre : ¬ envMem (s 0).pre c.mem = e := by
    rw [noWrites_pre _ _ hw]; exact fun h => hne h.symm
  have hne2 : ¬ c.mem = e := fun h => hne h.symm
  unfold __bionic_cmpxchg
  rw [doWhile_succ, cmpxchg_iter]
  simp [hpre, hne2, noWrites_pre _ _ hw, noWrites_mid _ _ hw, iterations, Event.isStore]

theorem cmpxchg_mismatch_returns_one_witness :
    (__bionic_cmpxchg ⟨true, false⟩ (lostFirst 1) 1 5 20 (entry ⟨true, false⟩ 10)).map
      (fun r => (r.1, r.2.mem)) = some (1, 10) := by
  obtain ⟨r, h1, h2, _⟩ := cmpxchg_mismatch_returns_one ⟨true, false⟩ (lostFirst 1) 1 5 20
    (entry ⟨true, false⟩ 10) (by decide) (by decide) (by decide)
  rw [h1]
  simp only [Option.map_some', h2]
  rfl

/-- C3: when no other agent writes the target and the exclusive store loses its
reservation in the first `k` iterations and holds it in iteration `k`, then
with any fuel above `k` the call `__bionic_swap(n, &target)` returns the value
`v` the target held at entry and the target holds `n` afterwards. -/
theorem swap_returns_previous (b : Build) (s : Sched) (k fuel : Nat) (n : Int) (c : Cpu)
    (hw : ∀ j, j ≤ k → (s j).noWrites = true)
    (hlost : ∀ j, j < k → (s j).mid ≠ [])
    (hheld : (s k).mid = []) (hfuel : k < fuel) :
    ∃ r, __bionic_swap b s fuel n c = some (c.mem, r) ∧ r.mem = n ∧
      iterations r.log = k + 1 := by
  obtain ⟨r, h1, h2, h3, h4, _⟩ := swap_run b s n k fuel 0
    { c with new_value := n, log := [] } rfl
    (fun j hj => by rw [Nat.zero_add]; exact ⟨hw j (by omega), hlost j hj⟩)
    (by rw [Nat.zero_add]; exact hw k (le_refl _)) (by rw [Nat.zero_add]; exact hheld) hfuel
  refine ⟨r, ?_, h3, ?_⟩
  · unfold __bionic_swap
    rw [h1]
    simp only [Option.map_some', h2]
  · rw [h4]; simp [iterations]

theorem swap_returns_previous_witness :
    (__bionic_swap ⟨false, false⟩ (lostFirst 1) 2 3 (entry ⟨false, false⟩ 7)).map
      (fun r => (r.1, r.2.mem)) = some (7, 3) := by
  obtain ⟨r, h1, h2, _⟩ := swap_returns_previous ⟨false, false⟩ (lostFirst 1) 1 2 3
    (entry ⟨false, false⟩ 7) (by decide) (by decide) (by decide) (by decide)
  rw [h1]
  simp only [Option.map_some', h2]
  rfl

/-- C4: for a target word holding an `int32_t` value `v`, when no other agent
writes the target and the exclusive store loses its reservation in the first
`k` iterations and holds it in iteration `k`, then with any fuel above `k`
`__bionic_atomic_dec(&target)` returns `v` and the target afterwards holds the
`int32_t` congruent to `v - 1` modulo `2^32`: `v - 1` when `v` is not
`INT32_MIN` (so 0 becomes -1), and `INT32_MAX` when `v` is `INT32_MIN`; the
call always produces this result, there is no overflow check. -/
theorem atomic_dec_wraps (b : Build) (s : Sched) (k fuel : Nat) (c : Cpu)
    (hmin : INT32_MIN ≤ c.mem) (hmax : c.mem ≤ INT32_MAX)
    (hw : ∀ j, j ≤ k → (s j).noWrites = true)
    (hlost : ∀ j, j < k → (s j).mid ≠ [])
    (hheld : (s k).mid = []) (hfuel : k < fuel) :
    ∃ r, __bionic_atomic_dec b s fuel c = some (c.mem, r) ∧
      INT32_MIN ≤ r.mem ∧ r.mem ≤ INT32_MAX ∧
      (r.mem - (c.mem - 1)) % 4294967296 = 0 ∧
      (c.mem ≠ INT32_MIN → r.mem = c.mem - 1) ∧
      (c.mem = 0 → r.mem = -1) ∧
      (c.mem = INT32_MIN → r.mem = INT32_MAX) := by
  obtain ⟨r, h1, h2, h3, _, _⟩ := atomic_dec_run b s k fuel 0 { c with log := [] }
    (fun j hj => by rw [Nat.zero_add]; exact ⟨hw j (by omega), hlost j hj⟩)
    (by rw [Nat.zero_add]; exact hw k (le_refl _)) (by rw [Nat.zero_add]; exact hheld) hfuel
  have h3b : r.mem = wrap32 (c.mem - 1) := h3
  have hs := wrap32_spec (c.mem - 1)
  have hp := wrap32_pred c.mem hmin hmax
  refine ⟨r, ?_, ?_, ?_, ?_, ?_, ?_, ?_⟩
  · unfold __bionic_atomic_dec
    rw [h1]
    simp only [Option.map_some', h2]
  · rw [h3b]; exact hs.1
  · rw [h3b]; exact hs.2.1
  · rw [h3b]; exact hs.2.2
  · intro h; rw [h3b]; exact hp.2 h
  · intro h; rw [h3b, hp.2 (by rw [h]; decide), h]; rfl
  · intro h; rw [h3b]; exact hp.1 h

theorem atomic_dec_wraps_witness :
    (__bionic_atomic_dec ⟨false, false⟩ (lostFirst 1) 2 (entry ⟨false, false⟩ INT32_MIN)).map
      (fun r => (r.1, r.2.mem)) = some (INT32_MIN, INT32_MAX) := by
  obtain ⟨r, h1, _, _, _, _, _, h7⟩ := atomic_dec_wraps ⟨false, false⟩ (lostFirst 1) 1 2
    (entry ⟨false, false⟩ INT32_MIN) (by decide) (by decide) (by decide) (by decide)
    (by decide) (by decide)
  rw [h1]
  simp only [Option.map_some', h7 rfl]
  rfl

/-! ## Termination of the retry loops -/

theorem cmpxchg_status_of_held (b : Build) (env : IterEnv) (c : Cpu) (h : env.mid = []) :
    (execAsm env (cmpxchg_asm b) c).status = 0 := by
  rw [cmpxchg_iter, if_pos h]
  by_cases hp : envMem env.pre c.mem = c.old_value
  · rw [if_pos hp]
  · rw [if_neg hp]

theorem swap_status_of_held (b : Build) (env : IterEnv) (c : Cpu) (h : env.mid = []) :
    (execAsm env (swap_asm b) c).status = 0 := by
  rw [swap_iter, if_pos h]

theorem atomic_dec_status_of_held (b : Build) (env : IterEnv) (c : Cpu) (h : env.mid = []) :
    (execAsm env (atomic_dec_asm b) c).status = 0 := by
  rw [atomic_dec_iter, if_pos h]

/-- C5: when the reservation is lost in finitely many iterations only (never from
iteration `N` on), each of the three retry loops terminates: there is an amount
of fuel from which on the call returns one and the same result, that result is
0 or 1 for `__bionic_cmpxchg` and the value read by the last exclusive load for
`__bionic_swap` and `__bionic_atomic_dec`, and the number of iterations is one
more than the number of exclusive stores that lost their reservation. Foreign
writes of the target word are allowed throughout. -/
theorem retry_loops_terminate (b : Build) (s : Sched) (N : Nat) (e n : Int) (c : Cpu)
    (hN : ∀ i, N ≤ i → (s i).mid = []) :
    (∃ fuel r, (∀ fuel2, fuel ≤ fuel2 → __bionic_cmpxchg b s fuel2 e n c = some r) ∧
        (r.1 = 0 ∨ r.1 = 1) ∧ iterations r.2.log = failedStores r.2.log + 1) ∧
    (∃ fuel r, (∀ fuel2, fuel ≤ fuel2 → __bionic_swap b s fuel2 n c = some r) ∧
        lastRead r.2.log = some r.1 ∧ iterations r.2.log = failedStores r.2.log + 1) ∧
    (∃ fuel r, (∀ fuel2, fuel ≤ fuel2 → __bionic_atomic_dec b s fuel2 c = some r) ∧
        lastRead r.2.log = some r.1 ∧ iterations r.2.log = failedStores r.2.log + 1) := by
  refine ⟨?_, ?_, ?_⟩
  · obtain ⟨r, hr⟩ := doWhile_terminates (cmpxchg_asm b) s N
      (fun i x hi => cmpxchg_status_of_held b (s i) x (hN i hi)) N 0
      { c with old_value := e, new_value := n, log := [] } (by omega)
    refine ⟨N + 1, (if r.prev ≠ e then 1 else 0, r), ?_, ?_, ?_⟩
    · intro fuel2 h2
      unfold __bionic_cmpxchg
      rw [doWhile_mono _ _ _ fuel2 _ _ _ h2 hr]
      rfl
    · by_cases hp : r.prev = e <;> simp [hp]
    · obtain ⟨k, _, _, _, hsh⟩ := cmpxchg_shape b s e n c (N + 1) r hr
      rcases hsh with ⟨_, _, _, hl⟩ | ⟨_, hl⟩
      · simp only [hl, iterations_retryLog, failedStores_retryLog]
        simp [iterations, failedStores, Event.isFailedStore]
      · simp only [hl, iterations_retryLog, failedStores_retryLog]
        simp [iterations, failedStores, Event.isFailedStore]
  · obtain ⟨r, hr⟩ := doWhile_terminates (swap_asm b) s N
      (fun i x hi => swap_status_of_held b (s i) x (hN i hi)) N 0
      { c with new_value := n, log := [] } (by omega)
    refine ⟨N + 1, (r.prev, r), ?_, ?_, ?_⟩
    · intro fuel2 h2
      unfold __bionic_swap
      rw [doWhile_mono _ _ _ fuel2 _ _ _ h2 hr]
      rfl
    · obtain ⟨vs, _, _, _, _, _, hl⟩ := swap_shape b s n c (N + 1) r hr
      simp only [hl]
      exact lastRead_append_load _ _ _ _ (by simp [Event.isLoad])
    · obtain ⟨vs, _, _, _, _, _, hl⟩ := swap_shape b s n c (N + 1) r hr
      simp only [hl, iterations_retryLog, failedStores_retryLog]
      simp [iterations, failedStores, Event.isFailedStore]
  · obtain ⟨r, hr⟩ := doWhile_terminates (atomic_dec_asm b) s N
      (fun i x hi => atomic_dec_status_of_held b (s i) x (hN i hi)) N 0
      { c with log := [] } (by omega)
    refine ⟨N + 1, (r.prev, r), ?_, ?_, ?_⟩
    · intro fuel2 h2
      unfold __bionic_atomic_dec
      rw [doWhile_mono _ _ _ fuel2 _ _ _ h2 hr]
      rfl
    · obtain ⟨vs, _, _, _, _, _, hl⟩ := atomic_dec_shape b s c (N + 1) r hr
      simp only [hl]
      exact lastRead_append_load _ _ _ _ (by simp [Event.isLoad])
    · obtain ⟨vs, _, _, _, _, _, hl⟩ := atomic_dec_shape b s c (N + 1) r hr
      simp only [hl, iterations_retryLog, failedStores_retryLog]
      simp [iterations, failedStores, Event.isFailedStore]

theorem retry_loops_terminate_witness :
    ∃ fuel r, __bionic_swap ⟨false, false⟩ (lostFirst 2) fuel 3 (entry ⟨false, false⟩ 7) = some r ∧
      lastRead r.2.log = some r.1 ∧ iterations r.2.log = failedStores r.2.log + 1 := by
  obtain ⟨_, ⟨fuel, r, h1, h2, h3⟩, _⟩ := retry_loops_terminate ⟨false, false⟩ (lostFirst 2) 2 5 3
    (entry ⟨false, false⟩ 7)
    (by
      intro i hi
      have hlt : ¬ i < 2 := by omega
      simp [lostFirst, hlt, quiet])
  exact ⟨fuel, r, h1 fuel (le_refl _), h2, h3⟩

/-! ## Retry on contention, not on mismatch -/

/-- C8: in `__bionic_cmpxchg`, (a) when the first exclusive load reads a value
other than the expected one, the call returns 1 after exactly one iteration,
with `status` 0 and without any store attempt; (b) in every run that returns,
an exclusive load of a value other than the expected one is directly followed
by the end of the loop, the loop goes round again only directly after an
exclusive store that lost its reservation, and the loop ends with `status` 0. -/
theorem cmpxchg_retries_only_on_lost_store (b : Build) (s : Sched) (fuel : Nat) (e n : Int)
    (c : Cpu) :
    (0 < fuel → envMem (s 0).pre c.mem ≠ e →
      ∃ r, __bionic_cmpxchg b s fuel e n c = some (1, r) ∧ r.status = 0 ∧
        iterations r.log = 1 ∧ ∀ ev ∈ r.log, ev.isStore = false) ∧
    (∀ r, __bionic_cmpxchg b s fuel e n c = some r →
      List.Chain' (fun x y => MismatchExits e x y ∧ RetryAfterLostStore x y ∧ DoneIsLast x)
        r.2.log ∧
      (∃ m v, r.2.log.head? = some (Event.load m v)) ∧
      r.2.log.getLast? = some Event.done ∧ r.2.status = 0) := by
  constructor
  · intro hfuel hne
    obtain ⟨f, rfl⟩ : ∃ f, fuel = f + 1 := ⟨fuel - 1, by omega⟩
    unfold __bionic_cmpxchg
    rw [doWhile_succ, cmpxchg_iter]
    simp [hne, iterations, Event.isStore]
  · intro r h
    unfold __bionic_cmpxchg at h
    cases hd : doWhile (cmpxchg_asm b) s fuel 0
        { c with old_value := e, new_value := n, log := [] } with
    | none => rw [hd] at h; simp at h
    | some x =>
      rw [hd] at h
      simp only [Option.map_some', Option.some.injEq] at h
      subst h
      obtain ⟨k, _, _, hst, hsh⟩ := cmpxchg_shape b s e n c fuel x hd
      have hmem : ∀ v ∈ List.replicate k e, v = e := fun v hv => List.eq_of_mem_replicate hv
      rcases hsh with ⟨_, _, _, hl⟩ | ⟨hp, hl⟩
      · refine ⟨?_, ?_, ?_, hst⟩
        · simp only [hl]
          apply chain_retryLog
          · intro v; simp [MismatchExits, RetryAfterLostStore, DoneIsLast]
          · simp [List.chain'_cons, MismatchExits, RetryAfterLostStore, DoneIsLast,
              Event.isFailedStore]
          · intro v hv
            simp [MismatchExits, RetryAfterLostStore, DoneIsLast, Event.isFailedStore,
              hmem v hv]
        · simp only [hl]
          obtain ⟨v, hv⟩ := head_retryLog _ (fun _ => n) (List.replicate k e) e _
          exact ⟨_, v, hv⟩
        · simp [hl]
      · refine ⟨?_, ?_, ?_, hst⟩
        · simp only [hl]
          apply chain_retryLog
          · intro v; simp [MismatchExits, RetryAfterLostStore, DoneIsLast]
          · simp [List.chain'_cons, MismatchExits, RetryAfterLostStore, DoneIsLast,
              Event.isFailedStore]
          · intro v hv
            simp [MismatchExits, RetryAfterLostStore, DoneIsLast, Event.isFailedStore,
              hmem v hv]
        · simp only [hl]
          obtain ⟨v, hv⟩ := head_retryLog _ (fun _ => n) (List.replicate k e) x.prev _
          exact ⟨_, v, hv⟩
        · simp [hl]

theorem cmpxchg_retries_only_on_lost_store_witness :
    (__bionic_cmpxchg ⟨true, true⟩ (lostFirst 3) 1 5 20 (entry ⟨true, true⟩ 10)).map
      (fun r => (r.1, iterations r.2.log)) = some (1, 1) := by
  obtain ⟨r, h1, _, h3, _⟩ := (cmpxchg_retries_only_on_lost_store ⟨true, true⟩ (lostFirst 3) 1
    5 20 (entry ⟨true, true⟩ 10)).1 (by decide) (by decide)
  rw [h1]
  simp only [Option.map_some', h3]

/-- C9: for every run of `__bionic_cmpxchg(e, n, &target)` that returns, whatever
other agents wrote to the target and whenever, the result is 0 or 1, it is 0
exactly when the value read by the last exclusive load equals `e`; when it is 0
the last iteration committed the store of `n` (the log ends with the load of
`e`, the committed store of `n` and the loop exit, and the target holds `n`);
when it is 1 no exclusive store of the call was committed in any iteration. -/
theorem cmpxchg_result_reflects_final_read (b : Build) (s : Sched) (fuel : Nat) (e n : Int)
    (c : Cpu) (r : Int × Cpu) (h : __bionic_cmpxchg b s fuel e n c = some r) :
    ∃ v, lastRead r.2.log = some v ∧ (r.1 = 0 ↔ v = e) ∧ (r.1 = 0 ∨ r.1 = 1) ∧
      (r.1 = 0 → r.2.mem = n ∧
        ∃ l m, r.2.log = l ++ [Event.load m e, Event.store m n true, Event.done]) ∧
      (r.1 = 1 → ∀ ev ∈ r.2.log, ev.isCommit = false) := by
  unfold __bionic_cmpxchg at h
  cases hd : doWhile (cmpxchg_asm b) s fuel 0
      { c with old_value := e, new_value := n, log := [] } with
  | none => rw [hd] at h; simp at h
  | some x =>
    rw [hd] at h
    simp only [Option.map_some', Option.some.injEq] at h
    subst h
    obtain ⟨k, _, _, _, hsh⟩ := cmpxchg_shape b s e n c fuel x hd
    rcases hsh with ⟨hp, hmem, _, hl⟩ | ⟨hp, hl⟩
    · refine ⟨e, ?_, ?_, ?_, ?_, ?_⟩
      · simp only [hl]
        exact lastRead_append_load _ _ _ _ (by simp [Event.isLoad])
      · simp [hp]
      · simp [hp]
      · intro _
        exact ⟨hmem, _, _, hl⟩
      · simp [hp]
    · refine ⟨x.prev, ?_, ?_, ?_, ?_, ?_⟩
      · simp only [hl]
        exact lastRead_append_load _ _ _ _ (by simp [Event.isLoad])
      · simp [hp]
      · simp [hp]
      · simp [hp]
      · intro _ ev hev
        simp only [hl, List.mem_append, List.mem_cons, List.mem_singleton,
          List.not_mem_nil, or_false] at hev
        rcases hev with hev | rfl | rfl
        · exact commit_not_mem_retryLog _ _ _ ev hev
        · rfl
        · rfl

theorem cmpxchg_result_reflects_final_read_witness :
    ∃ v, lastRead [Event.load Mode.arm 5, Event.store Mode.arm 10 false, Event.retry,
        Event.load Mode.arm 6, Event.done] = some v ∧ ¬ v = 5 := by
  obtain ⟨v, h1, h2, _⟩ := cmpxchg_result_reflects_final_read ⟨false, false⟩ (raceOnce 6) 2
    5 10 (entry ⟨false, false⟩ 5)
    (1, { entry ⟨false, false⟩ 5 with
            mem := 6, excl := true, prev := 6, old_value := 5, new_value := 10,
            log := [Event.load Mode.arm 5, Event.store Mode.arm 10 false, Event.retry,
              Event.load Mode.arm 6, Event.done] })
    (by decide)
  exact ⟨v, h1, fun hv => absurd (h2.mpr hv) (by decide)⟩

/-! ## The retry state machine -/

theorem machine_retryLog (m : Mode) (f : Int → Int) (vs : List Int) (v w : Int) :
    List.Chain' Machine
      (retryLog m f vs ++ [Event.load m v, Event.store m w true, Event.done]) := by
  apply chain_retryLog
  · intro x; simp [Machine, Event.phase]
  · simp [List.chain'_cons, Machine, Event.phase]
  · intro x _; simp [Machine, Event.phase]

/-- C10, as stated, fails: a call of `__bionic_cmpxchg` whose exclusive load reads
10 while 5 is expected goes from READ straight to DONE, without ATTEMPT-STORE. -/
theorem cmpxchg_read_to_done_without_store :
    (__bionic_cmpxchg ⟨false, false⟩ (fun _ => quiet) 1 5 20 (entry ⟨false, false⟩ 10)).map
        (fun r => r.2.log) = some [Event.load Mode.arm 10, Event.done] ∧
      ¬ List.Chain' Machine [Event.load Mode.arm 10, Event.done] :=
  ⟨by decide, by simp [Machine, Event.phase]⟩

/-- C10, amended: in every run that returns, `__bionic_swap` and
`__bionic_atomic_dec` follow the state machine READ, ATTEMPT-STORE, RETRY, DONE
exactly (every exclusive load is followed by a store attempt, which leads to
DONE exactly when the reservation held and to RETRY and then READ exactly when
it was lost, and DONE is entered from ATTEMPT-STORE only), while
`__bionic_cmpxchg` follows it with one difference: READ goes to ATTEMPT-STORE
only when the value read equals the expected value and goes directly to DONE
otherwise. Every log begins in READ and ends in DONE. -/
theorem retry_state_machine (b : Build) (s : Sched) (fuel : Nat) (e n : Int) (c : Cpu) :
    (∀ r, __bionic_swap b s fuel n c = some r →
      List.Chain' Machine r.2.log ∧ (∃ m v, r.2.log.head? = some (Event.load m v)) ∧
        r.2.log.getLast? = some Event.done) ∧
    (∀ r, __bionic_atomic_dec b s fuel c = some r →
      List.Chain' Machine r.2.log ∧ (∃ m v, r.2.log.head? = some (Event.load m v)) ∧
        r.2.log.getLast? = some Event.done) ∧
    (∀ r, __bionic_cmpxchg b s fuel e n c = some r →
      List.Chain' (MachineCas e) r.2.log ∧
        (∃ m v, r.2.log.head? = some (Event.load m v)) ∧
        r.2.log.getLast? = some Event.done) := by
  refine ⟨?_, ?_, ?_⟩
  · intro r h
    unfold __bionic_swap at h
    cases hd : doWhile (swap_asm b) s fuel 0 { c with new_value := n, log := [] } with
    | none => rw [hd] at h; simp at h
    | some x =>
      rw [hd] at h
      simp only [Option.map_some', Option.some.injEq] at h
      subst h
      obtain ⟨vs, _, _, _, _, _, hl⟩ := swap_shape b s n c fuel x hd
      refine ⟨?_, ?_, ?_⟩
      · simp only [hl]; exact machine_retryLog _ _ _ _ _
      · simp only [hl]
        obtain ⟨v, hv⟩ := head_retryLog c.mode (fun _ => n) vs x.prev
          [Event.store c.mode n true, Event.done]
        exact ⟨_, v, hv⟩
      · simp [hl]
  · intro r h
    unfold __bionic_atomic_dec at h
    cases hd : doWhile (atomic_dec_asm b) s fuel 0 { c with log := [] } with
    | none => rw [hd] at h; simp at h
    | some x =>
      rw [hd] at h
      simp only [Option.map_some', Option.some.injEq] at h
      subst h
      obtain ⟨vs, _, _, _, _, _, hl⟩ := atomic_dec_shape b s c fuel x hd
      refine ⟨?_, ?_, ?_⟩
      · simp only [hl]; exact machine_retryLog _ _ _ _ _
      · simp only [hl]
        obtain ⟨v, hv⟩ := head_retryLog c.mode (fun v => wrap32 (v - 1)) vs x.prev
          [Event.store c.mode (wrap32 (x.prev - 1)) true, Event.done]
        exact ⟨_, v, hv⟩
      · simp [hl]
  · intro r h
    unfold __bionic_cmpxchg at h
    cases hd : doWhile (cmpxchg_asm b) s fuel 0
        { c with old_value := e, new_value := n, log := [] } with
    | none => rw [hd] at h; simp at h
    | some x =>
      rw [hd] at h
      simp only [Option.map_some', Option.some.injEq] at h
      subst h
      obtain ⟨k, _, _, _, hsh⟩ := cmpxchg_shape b s e n c fuel x hd
      have hmem : ∀ v ∈ List.replicate k e, v = e := fun v hv => List.eq_of_mem_replicate hv
      rcases hsh with ⟨_, _, _, hl⟩ | ⟨hp, hl⟩
      · refine ⟨?_, ?_, ?_⟩
        · simp only [hl]
          apply chain_retryLog
          · intro v; simp [MachineCas, Event.phase]
          · simp [List.chain'_cons, MachineCas, Event.phase]
          · intro v hv; simp [MachineCas, Event.phase, hmem v hv]
        · simp only [hl]
          obtain ⟨v, hv⟩ := head_retryLog _ (fun _ => n) (List.replicate k e) e _
          exact ⟨_, v, hv⟩
        · simp [hl]
      · refine ⟨?_, ?_, ?_⟩
        · simp only [hl]
          apply chain_retryLog
          · intro v; simp [MachineCas, Event.phase]
          · simp only [List.chain'_cons, List.chain'_singleton, and_true]
            refine ⟨?_, ?_, ?_, ?_, ?_⟩
            · intro m v hv
              cases hv
              exact ⟨fun h => absurd h hp, fun _ => rfl⟩
            · intro m v ok hv; cases hv
            · intro h; simp [Event.phase] at h
            · intro _; exact Or.inr ⟨_, _, rfl, hp⟩
            · simp [Event.phase]
          · intro v hv; simp [MachineCas, Event.phase, hmem v hv]
        · simp only [hl]
          obtain ⟨v, hv⟩ := head_retryLog _ (fun _ => n) (List.replicate k e) x.prev _
          exact ⟨_, v, hv⟩
        · simp [hl]

theorem retry_state_machine_witness :
    List.Chain' Machine [Event.load Mode.arm 7, Event.store Mode.arm 3 false, Event.retry,
      Event.load Mode.arm 7, Event.store Mode.arm 3 true, Event.done] :=
  ((retry_state_machine ⟨false, false⟩ (lostFirst 1) 2 0 3 (entry ⟨false, false⟩ 7)).1
    (7, { entry ⟨false, false⟩ 7 with
            mem := 3, prev := 7, new_value := 3,
            log := [Event.load Mode.arm 7, Event.store Mode.arm 3 false, Event.retry,
              Event.load Mode.arm 7, Event.store Mode.arm 3 true, Event.done] })
    (by decide)).1

/-! ## The mode-switch shim -/

theorem cmpxchg_final_mode (b : Build) (hb : b.thumb1 = true) (s : Sched) (fuel : Nat)
    (c r : Cpu) (h : doWhile (cmpxchg_asm b) s fuel 0 c = some r) : r.mode = Mode.thumb := by
  obtain ⟨k, _, _, hk⟩ := doWhile_inv (cmpxchg_asm b) s (fun _ _ => True)
    (fun _ x => x.mode = Mode.thumb)
    (by
      intro i x _
      refine ⟨fun _ => trivial, fun _ => ?_⟩
      rw [cmpxchg_iter]
      by_cases hp : envMem (s i).pre x.mem = x.old_value
      · by_cases hm : (s i).mid = []
        · rw [if_pos hp, if_pos hm]; simp [hb]
        · rw [if_pos hp, if_neg hm]; simp [hb]
      · rw [if_neg hp]; simp [hb])
    fuel 0 c r trivial h
  exact hk

/-- In a build for the restricted compact encoding, `__bionic_cmpxchg` encloses
its exclusive accesses in the two switch sequences and declares the `r3`
clobber; its exclusive accesses run in the full encoding and it ends in the
compact mode. -/
theorem cmpxchg_switches_mode (b : Build) (hb : b.thumb1 = true) (s : Sched) (fuel : Nat)
    (e n : Int) (c : Cpu) (r : Int × Cpu) (h : __bionic_cmpxchg b s fuel e n c = some r) :
    cmpxchg_asm b =
        [Asm.adr Reg.r3 5 0, Asm.bx Reg.r3, Asm.align, Asm.arm, Asm.label 5] ++
        [Asm.ldrex Reg.prev, Asm.mov Reg.status 0, Asm.teq Reg.prev Reg.old_value,
         Asm.strex Cond.eq Reg.status Reg.new_value] ++
        [Asm.adr Reg.r3 6 1, Asm.bx Reg.r3, Asm.thumb, Asm.label 6] ∧
      Clobber.r3 ∈ cmpxchg_clobbers b ∧
      (∀ m v, Event.load m v ∈ r.2.log → m = Mode.arm) ∧
      (∀ m v ok, Event.store m v ok ∈ r.2.log → m = Mode.arm) ∧
      r.2.mode = Mode.thumb := by
  have hb2 : b.thumb2 = false := by
    rcases b with ⟨_ | _, _ | _⟩ <;> simp [Build.thumb1] at hb ⊢
  refine ⟨by simp [cmpxchg_asm, __ATOMIC_SWITCH_TO_ARM, __ATOMIC_SWITCH_TO_THUMB, hb, hb2],
    by simp [cmpxchg_clobbers, __ATOMIC_CLOBBERS, hb], ?_⟩
  unfold __bionic_cmpxchg at h
  cases hd : doWhile (cmpxchg_asm b) s fuel 0
      { c with old_value := e, new_value := n, log := [] } with
  | none => rw [hd] at h; simp at h
  | some x =>
    rw [hd] at h
    simp only [Option.map_some', Option.some.injEq] at h
    subst h
    obtain ⟨k, _, _, _, hsh⟩ := cmpxchg_shape b s e n c fuel x hd
    simp only [hb, if_true] at hsh
    have hrl : ∀ vs : List Int, ∀ ev ∈ retryLog Mode.arm (fun _ => n) vs,
        (∀ m v, ev = Event.load m v → m = Mode.arm) ∧
        (∀ m v ok, ev = Event.store m v ok → m = Mode.arm) := by
      intro vs
      induction vs with
      | nil => intro ev hev; simp [retryLog] at hev
      | cons a vs ih =>
        intro ev hev
        simp only [retryLog, List.mem_cons] at hev
        rcases hev with rfl | rfl | rfl | hev
        · simp
        · simp
        · simp
        · exact ih ev hev
    have hall : ∀ ev ∈ x.log, (∀ m v, ev = Event.load m v → m = Mode.arm) ∧
        (∀ m v ok, ev = Event.store m v ok → m = Mode.arm) := by
      intro ev hev
      rcases hsh with ⟨_, _, _, hl⟩ | ⟨_, hl⟩
      · simp only [hl, List.mem_append, List.mem_cons, List.mem_singleton,
          List.not_mem_nil, or_false] at hev
        rcases hev with hev | rfl | rfl | rfl
        · exact hrl _ ev hev
        · simp
        · simp
        · simp
      · simp only [hl, List.mem_append, List.mem_cons, List.mem_singleton,
          List.not_mem_nil, or_false] at hev
        rcases hev with hev | rfl | rfl
        · exact hrl _ ev hev
        · simp
        · simp
    exact ⟨fun m v hm => (hall _ hm).1 m v rfl, fun m v ok hm => (hall _ hm).2 m v ok rfl,
      cmpxchg_final_mode b hb s fuel _ x hd⟩

/-- Outside builds for the restricted compact encoding the three shim macros
expand to nothing. -/
theorem shim_empty_outside_thumb1 (b : Build) (hb : b.thumb1 = false) :
    __ATOMIC_SWITCH_TO_ARM b = [] ∧ __ATOMIC_SWITCH_TO_THUMB b = [] ∧
      __ATOMIC_CLOBBERS b = [] := by
  simp [__ATOMIC_SWITCH_TO_ARM, __ATOMIC_SWITCH_TO_THUMB, __ATOMIC_CLOBBERS, hb]

/-- C7 fails on the code for `__bionic_swap` and `__bionic_atomic_dec`: in a build
for the restricted compact encoding (`__thumb__` defined, `__thumb2__` not) the
shim is not empty, yet the assembly of the two functions contains neither
switch sequence, their clobber lists lack `r3`, and their exclusive load and
exclusive store are executed in the compact mode. -/
theorem swap_and_dec_lack_mode_switch :
    __ATOMIC_SWITCH_TO_ARM ⟨true, false⟩ ≠ [] ∧
    __ATOMIC_CLOBBERS ⟨true, false⟩ = [Clobber.r3] ∧
    swap_asm ⟨true, false⟩ = [Asm.ldrex Reg.prev, Asm.strex Cond.al Reg.status Reg.new_value] ∧
    atomic_dec_asm ⟨true, false⟩ =
      [Asm.ldrex Reg.prev, Asm.sub Reg.tmp Reg.prev 1, Asm.strex Cond.al Reg.status Reg.tmp] ∧
    Clobber.r3 ∉ swap_clobbers ⟨true, false⟩ ∧
    Clobber.r3 ∉ atomic_dec_clobbers ⟨true, false⟩ ∧
    (__bionic_swap ⟨true, false⟩ (fun _ => quiet) 1 3 (entry ⟨true, false⟩ 7)).map
        (fun r => r.2.log) =
      some [Event.load Mode.thumb 7, Event.store Mode.thumb 3 true, Event.done] ∧
    (__bionic_atomic_dec ⟨true, false⟩ (fun _ => quiet) 1 (entry ⟨true, false⟩ 7)).map
        (fun r => r.2.log) =
      some [Event.load Mode.thumb 7, Event.store Mode.thumb 6 true, Event.done] := by
  decide

/-! ## Threads: instruction-level facts -/

theorem body_wellShaped (b : Build) (o : Op) : wellShaped (o.body b) = true := by
  have h1 : wellShaped (cmpxchg_asm b) = true := by rcases b with ⟨_ | _, _ | _⟩ <;> decide
  have h2 : wellShaped (swap_asm b) = true := by rcases b with ⟨_ | _, _ | _⟩ <;> decide
  have h3 : wellShaped (atomic_dec_asm b) = true := by rcases b with ⟨_ | _, _ | _⟩ <;> decide
  cases o
  · exact h1
  · exact h2
  · exact h3

theorem exec_shim (env : IterEnv) (i : Asm) (c : Cpu) (h : i.isShim = true) :
    (exec env i c).mem = c.mem ∧ (exec env i c).excl = c.excl ∧
      (exec env i c).prev = c.prev ∧ (exec env i c).status = c.status ∧
      (exec env i c).log = c.log := by
  cases i with
  | adr rd lbl off => cases rd <;> simp [Asm.isShim] at h; simp [exec, Cpu.set]
  | bx rm => simp [exec]
  | align => simp [exec]
  | arm => simp [exec]
  | thumb => simp [exec]
  | label n => simp [exec]
  | it_eq => simp [exec]
  | ldrex rt => simp [Asm.isShim] at h
  | mov rd imm => simp [Asm.isShim] at h
  | teq rn rm => simp [Asm.isShim] at h
  | strex k rd rt => simp [Asm.isShim] at h
  | sub rd rn imm => simp [Asm.isShim] at h

theorem execAsm_cons (env : IterEnv) (i : Asm) (l : List Asm) (c : Cpu) :
    execAsm env (i :: l) c = execAsm env l (exec env i c) := rfl

theorem execAsm_shim (env : IterEnv) (l : List Asm) (c : Cpu) (h : l.all Asm.isShim = true) :
    (execAsm env l c).mem = c.mem ∧ (execAsm env l c).excl = c.excl ∧
      (execAsm env l c).prev = c.prev ∧ (execAsm env l c).status = c.status ∧
      (execAsm env l c).log = c.log := by
  induction l generalizing c with
  | nil => simp [execAsm]
  | cons i l ih =>
    simp only [List.all_cons, Bool.and_eq_true] at h
    have h1 := exec_shim env i c h.1
    have h2 := ih (exec env i c) h.2
    rw [execAsm_cons]
    exact ⟨h2.1.trans h1.1, h2.2.1.trans h1.2.1, h2.2.2.1.trans h1.2.2.1,
      h2.2.2.2.1.trans h1.2.2.2.1, h2.2.2.2.2.trans h1.2.2.2.2⟩

theorem exec_args (env : IterEnv) (i : Asm) (c : Cpu)
    (h1 : i.dest ≠ some Reg.old_value) (h2 : i.dest ≠ some Reg.new_value) :
    (exec env i c).old_value = c.old_value ∧ (exec env i c).new_value = c.new_value := by
  cases i with
  | adr rd lbl off => cases rd <;> simp [Asm.dest] at h1 h2 <;> simp [exec, Cpu.set]
  | bx rm => simp [exec]
  | align => simp [exec]
  | arm => simp [exec]
  | thumb => simp [exec]
  | label n => simp [exec]
  | it_eq => simp [exec]
  | ldrex rt => cases rt <;> simp [Asm.dest] at h1 h2 <;> simp [exec, Cpu.set, applyEvs_eq]
  | mov rd imm => cases rd <;> simp [Asm.dest] at h1 h2 <;> simp [exec, Cpu.set]
  | teq rn rm => simp [exec]
  | strex k rd rt =>
    cases rd <;> simp [Asm.dest] at h1 h2 <;>
      simp only [exec, applyEvs_eq] <;> split_ifs <;> simp [Cpu.set]
  | sub rd rn imm => cases rd <;> simp [Asm.dest] at h1 h2 <;> simp [exec, Cpu.set]

/-- An instruction that is no exclusive access neither reads nor writes the
target word and the monitor. -/
theorem exec_local (i : Asm) (c : Cpu) (m : Int) (x : Bool)
    (h1 : i.isLdrex = false) (h2 : i.isStrex = false) :
    exec quiet i { c with mem := m, excl := x } = { exec quiet i c with mem := m, excl := x } ∧
      (exec quiet i c).log = c.log ∧ (exec quiet i c).excl = c.excl ∧
      (exec quiet i c).mem = c.mem := by
  cases i with
  | adr rd lbl off => cases rd <;> simp [exec, Cpu.set]
  | bx rm => cases rm <;> simp [exec, Cpu.get]
  | align => simp [exec]
  | arm => simp [exec]
  | thumb => simp [exec]
  | label n => simp [exec]
  | it_eq => simp [exec]
  | ldrex rt => simp [Asm.isLdrex] at h1
  | mov rd imm => cases rd <;> simp [exec, Cpu.set]
  | teq rn rm => cases rn <;> cases rm <;> simp [exec, Cpu.get]
  | strex k rd rt => simp [Asm.isStrex] at h2
  | sub rd rn imm => cases rd <;> cases rn <;> simp [exec, Cpu.set, Cpu.get]

theorem commitCount_exec_le (env : IterEnv) (i : Asm) (c : Cpu) :
    commitCount c.log ≤ commitCount (exec env i c).log := by
  cases i with
  | adr rd lbl off => cases rd <;> simp [exec, Cpu.set]
  | bx rm => simp [exec]
  | align => simp [exec]
  | arm => simp [exec]
  | thumb => simp [exec]
  | label n => simp [exec]
  | it_eq => simp [exec]
  | ldrex rt => cases rt <;> simp [exec, Cpu.set, applyEvs_eq, commitCount, List.countP_append]
  | mov rd imm => cases rd <;> simp [exec, Cpu.set]
  | teq rn rm => simp [exec]
  | strex k rd rt =>
    cases rd <;> simp only [exec, applyEvs_eq] <;> split_ifs <;>
      simp [Cpu.set, commitCount, List.countP_append]
  | sub rd rn imm => cases rd <;> simp [exec, Cpu.set]

theorem commitCount_execAsm_le (env : IterEnv) (l : List Asm) (c : Cpu) :
    commitCount c.log ≤ commitCount (execAsm env l c).log := by
  induction l generalizing c with
  | nil => exact le_refl _
  | cons i l ih =>
    rw [execAsm_cons]
    exact le_trans (commitCount_exec_le env i c) (ih _)

theorem result_eq_reply (o : Op) (c : Cpu) : o.result c = o.reply c.prev := by
  cases o with
  | cmpxchg e n => by_cases h : c.prev = e <;> simp [Op.result, Op.reply, h]
  | swap n => rfl
  | dec => rfl

/-- A whole iteration run without interference: either it commits the atomic
transition of the operation on the value it read, or it is a compare-and-swap
that read a value other than the expected one and leaves the word alone. -/
theorem body_finish (b : Build) (o : Op) (c : Cpu) (ha : ArgsOK o c) :
    (commitCount (execAsm quiet (o.body b) c).log = commitCount c.log ∧
      (execAsm quiet (o.body b) c).mem = c.mem ∧ (execAsm quiet (o.body b) c).status = 0 ∧
      Mismatch o (execAsm quiet (o.body b) c).prev) ∨
    (commitCount (execAsm quiet (o.body b) c).log = commitCount c.log + 1 ∧
      (execAsm quiet (o.body b) c).mem = o.atomic c.mem ∧
      (execAsm quiet (o.body b) c).prev = c.mem ∧ (execAsm quiet (o.body b) c).status = 0 ∧
      ∀ e n, o = Op.cmpxchg e n → c.mem = e) := by
  cases o with
  | cmpxchg e n =>
    obtain ⟨h1, h2⟩ := ha
    simp only [Op.body]
    rw [cmpxchg_iter]
    by_cases hm : c.mem = e
    · right
      simp [quiet, envMem, h1, h2, hm, commitCount, List.countP_append, Event.isCommit,
        Op.atomic]
    · left
      simp [quiet, envMem, h1, h2, hm, commitCount, List.countP_append, Event.isCommit,
        Mismatch]
  | swap n =>
    right
    simp only [Op.body]
    rw [swap_iter]
    have h1 : c.new_value = n := ha
    simp [quiet, envMem, h1, commitCount, List.countP_append, Event.isCommit, Op.atomic]
  | dec =>
    right
    simp only [Op.body]
    rw [atomic_dec_iter]
    simp [quiet, envMem, commitCount, List.countP_append, Event.isCommit, Op.atomic]

/-- After an exclusive load whose reservation gets lost, the rest of the
iteration commits nothing, leaves the word alone, and ends with a status that
sends the loop round again, unless it is a compare-and-swap that read a value
other than the expected one. -/
theorem after_ldrex_lost (b : Build) (o : Op) (rt : Reg) (rest : List Asm) (c : Cpu)
    (ha : ArgsOK o c) (h : Asm.ldrex rt :: rest <:+ o.body b) (m : Int) :
    commitCount (execAsm quiet rest { exec quiet (Asm.ldrex rt) c with
        mem := m, excl := false }).log = commitCount c.log ∧
      (execAsm quiet rest { exec quiet (Asm.ldrex rt) c with mem := m, excl := false }).mem = m ∧
      ((execAsm quiet rest { exec quiet (Asm.ldrex rt) c with
          mem := m, excl := false }).status = 0 →
        Mismatch o (execAsm quiet rest { exec quiet (Asm.ldrex rt) c with
          mem := m, excl := false }).prev) := by
  rw [← List.mem_tails] at h
  cases o with
  | cmpxchg e n =>
    obtain ⟨h1, h2⟩ := ha
    rcases b with ⟨_ | _, _ | _⟩ <;>
      simp [Op.body, cmpxchg_asm, __ATOMIC_SWITCH_TO_ARM, __ATOMIC_SWITCH_TO_THUMB,
        Build.thumb1, List.tails] at h <;>
      obtain ⟨rfl, rfl⟩ := h <;>
      by_cases hm : c.mem = e <;>
      simp [execAsm, exec, quiet, applyEvs, Cpu.set, Cpu.get, Cond.holds, commitCount,
        List.countP_append, Event.isCommit, Mismatch, h1, h2, hm]
  | swap n =>
    simp [Op.body, swap_asm, List.tails] at h
    obtain ⟨rfl, rfl⟩ := h
    simp [execAsm, exec, quiet, applyEvs, Cpu.set, Cpu.get, Cond.holds, commitCount,
      List.countP_append, Event.isCommit]
  | dec =>
    simp [Op.body, atomic_dec_asm, List.tails] at h
    obtain ⟨rfl, rfl⟩ := h
    simp [execAsm, exec, quiet, applyEvs, Cpu.set, Cpu.get, Cond.holds, commitCount,
      List.countP_append, Event.isCommit]

/-! ## Threads: the invariant is kept by every step -/

theorem ArgsOK_of_eq (o : Op) (c c2 : Cpu) (h1 : c2.old_value = c.old_value)
    (h2 : c2.new_value = c.new_value) (h : ArgsOK o c) : ArgsOK o c2 := by
  cases o with
  | cmpxchg e n => exact ⟨h1.trans h.1, h2.trans h.2⟩
  | swap n => exact h2.trans h
  | dec => trivial

theorem Good_retry (b : Build) (T : Thread) (mem : Int) (won : Option Int)
    (hg : Good b T mem won) (hret : T.ret = none) (hs : T.cpu.status ≠ 0) :
    Good b { T with cpu := { T.cpu with log := T.cpu.log ++ [Event.retry] },
                    rest := T.op.body b } mem won := by
  obtain ⟨_, hB, hC, _⟩ := hg
  have hV := (hC hret).2
  have hwon : won = none := by
    cases won with
    | none => rfl
    | some v => exact absurd (hV v rfl).2.1 hs
  have hB2 : ArgsOK T.op { T.cpu with log := T.cpu.log ++ [Event.retry] } :=
    ArgsOK_of_eq _ _ _ rfl rfl hB
  refine ⟨List.suffix_refl _, hB2, fun _ => ⟨?_, ?_⟩, ?_⟩
  · intro m x _
    have hb := body_finish b T.op
      { T.cpu with log := T.cpu.log ++ [Event.retry], mem := m, excl := x }
      (ArgsOK_of_eq _ _ _ rfl rfl hB)
    rcases hb with ⟨h1, h2, h3, h4⟩ | ⟨h1, h2, h3, h4, h5⟩
    · exact ⟨Or.inl ⟨h1, h2⟩, fun _ => Or.inr (Or.inr h4)⟩
    · exact ⟨Or.inr ⟨h1, h2, h3, h4, hwon, h5⟩, fun _ => Or.inr (Or.inl h1)⟩
  · intro v hv
    rw [hwon] at hv
    cases hv
  · intro r hr
    rw [show ({ T with cpu := { T.cpu with log := T.cpu.log ++ [Event.retry] },
                       rest := T.op.body b } : Thread).ret = T.ret from rfl, hret] at hr
    cases hr

theorem Good_exit (b : Build) (T : Thread) (mem : Int) (won : Option Int)
    (hg : Good b T mem won) (hret : T.ret = none) (hrest : T.rest = [])
    (hs : T.cpu.status = 0) :
    Good b { T with cpu := { T.cpu with log := T.cpu.log ++ [Event.done] },
                    ret := some (T.op.result T.cpu) } mem won := by
  obtain ⟨hA, hB, hC, _⟩ := hg
  obtain ⟨hS, hV⟩ := hC hret
  refine ⟨hA, ArgsOK_of_eq _ _ _ rfl rfl hB, fun h => (Option.some_ne_none _ h).elim, ?_⟩
  intro r hr
  have hr2 : r = T.op.result T.cpu := by
    have : some (T.op.result T.cpu) = some r := hr
    cases this
    rfl
  have h2 := (hS mem false (fun h => by cases h)).2
  have hf : T.finish mem false = { T.cpu with mem := mem, excl := false } := by
    simp [Thread.finish, hrest, execAsm]
  rw [hf] at h2
  cases won with
  | some v =>
    refine Or.inl ⟨v, rfl, ?_⟩
    rw [hr2, result_eq_reply, (hV v rfl).2.2]
  | none =>
    rcases h2 hs with h | h | h
    · simp at h
    · exact absurd h (by simp)
    · refine Or.inr ⟨rfl, h, ?_⟩
      obtain ⟨e, n, ho, hp⟩ := h
      rw [hr2, ho]
      have hp2 : T.cpu.prev ≠ e := hp
      simp [Op.result, hp2]

theorem shaped_strex (body : List Asm) (k : Cond) (rd rt : Reg) (rest : List Asm)
    (hw : wellShaped body = true) (h : Asm.strex k rd rt :: rest <:+ body) :
    rest.all Asm.isShim = true ∧ rd = Reg.status := by
  unfold wellShaped at hw
  rw [Bool.and_eq_true, List.all_eq_true, List.all_eq_true] at hw
  have := hw.2 _ ((List.mem_tails _ _).mpr h)
  simpa using this

theorem shaped_dest (body : List Asm) (i : Asm) (hw : wellShaped body = true) (hi : i ∈ body) :
    i.dest ≠ some Reg.old_value ∧ i.dest ≠ some Reg.new_value := by
  unfold wellShaped at hw
  rw [Bool.and_eq_true, List.all_eq_true, List.all_eq_true] at hw
  have := hw.1 i hi
  simpa using this

/-- Transfer of the invariant to a thread whose possible futures are among those
of a thread that satisfies it. -/
theorem Good_transfer (b : Build) (T T2 : Thread) (mem : Int) (won : Option Int)
    (hg : Good b T mem won) (hret : T.ret = none) (hop : T2.op = T.op) (hret2 : T2.ret = none)
    (hsfx : T2.rest <:+ T.op.body b) (hargs : ArgsOK T.op T2.cpu)
    (hcount : commitCount T2.cpu.log = commitCount T.cpu.log)
    (hfut : ∀ m x, (x = true → T2.cpu.excl = true ∧ m = mem) →
      (∃ x0, (x0 = true → T.cpu.excl = true ∧ m = mem) ∧ T2.finish m x = T.finish m x0) ∨
      (commitCount (T2.finish m x).log = commitCount T.cpu.log ∧ (T2.finish m x).mem = m ∧
        ((T2.finish m x).status = 0 → Mismatch T.op (T2.finish m x).prev)))
    (hV : ∀ v, won = some v →
      T2.rest.all Asm.isShim = true ∧ T2.cpu.status = 0 ∧ T2.cpu.prev = v) :
    Good b T2 mem won := by
  obtain ⟨_, _, hC, _⟩ := hg
  obtain ⟨hS, _⟩ := hC hret
  refine ⟨by rw [hop]; exact hsfx, by rw [hop]; exact hargs, fun _ => ⟨?_, hV⟩, ?_⟩
  · intro m x hx
    rw [hop, hcount]
    rcases hfut m x hx with ⟨x0, hx0, heq⟩ | ⟨h1, h2, h3⟩
    · rw [heq]
      exact hS m x0 hx0
    · exact ⟨Or.inl ⟨h1, h2⟩, fun h => Or.inr (Or.inr (h3 h))⟩
  · intro r hr
    rw [hret2] at hr
    cases hr

theorem holds_frame (k : Cond) (c : Cpu) (m : Int) (x : Bool) :
    k.holds { c with mem := m, excl := x } = k.holds c := by
  cases k <;> rfl

theorem exec_strex_skip (k : Cond) (rd rt : Reg) (c : Cpu) (h : k.holds c = false) :
    exec quiet (Asm.strex k rd rt) c = c := by
  simp [exec, quiet, applyEvs, h]

theorem exec_strex_fail (k : Cond) (rt : Reg) (c : Cpu) (h : k.holds c = true)
    (hx : c.excl = false) :
    exec quiet (Asm.strex k Reg.status rt) c =
      { c with status := 1, excl := false,
               log := c.log ++ [Event.store c.mode (c.get rt) false] } := by
  simp [exec, quiet, applyEvs, h, hx, Cpu.set]

theorem exec_strex_commit (k : Cond) (rt : Reg) (c : Cpu) (h : k.holds c = true)
    (hx : c.excl = true) :
    exec quiet (Asm.strex k Reg.status rt) c =
      { c with status := 0, mem := c.get rt, excl := false,
               log := c.log ++ [Event.store c.mode (c.get rt) true] } := by
  simp [exec, quiet, applyEvs, h, hx, Cpu.set]

theorem get_frame (c : Cpu) (m : Int) (x : Bool) (r : Reg) :
    ({ c with mem := m, excl := x } : Cpu).get r = c.get r := by
  cases r <;> rfl

theorem Good_instr (b : Build) (T : Thread) (mem : Int) (won : Option Int) (now : Nat)
    (i : Asm) (rest : List Asm)
    (hg : Good b T mem won) (hret : T.ret = none) (hrest : T.rest = i :: rest)
    (hc : commits i { T.cpu with mem := mem } = false) :
    (exec quiet i { T.cpu with mem := mem }).mem = mem ∧
    Good b { T with cpu := exec quiet i { T.cpu with mem := mem }, rest := rest,
                    resAt := if i.isLdrex then now else T.resAt } mem won := by
  have hA : i :: rest <:+ T.op.body b := hrest ▸ hg.1
  have hB := hg.2.1
  have hVT := (hg.2.2.1 hret).2
  have hw := body_wellShaped b T.op
  have hd := shaped_dest _ i hw (hA.subset (List.mem_cons_self _ _))
  have hargs : ArgsOK T.op (exec quiet i { T.cpu with mem := mem }) :=
    ArgsOK_of_eq _ { T.cpu with mem := mem } _ (exec_args _ _ _ hd.1 hd.2).1
      (exec_args _ _ _ hd.1 hd.2).2 (ArgsOK_of_eq _ _ _ rfl rfl hB)
  have hsfx : rest <:+ T.op.body b := (List.suffix_cons i rest).trans hA
  by_cases hl : i.isLdrex = true
  · -- exclusive load
    cases i with
    | ldrex rt =>
      have hmem : (exec quiet (Asm.ldrex rt) { T.cpu with mem := mem }).mem = mem := by
        cases rt <;> simp [exec, quiet, applyEvs, Cpu.set]
      refine ⟨hmem, Good_transfer b T _ mem won hg hret rfl hret hsfx hargs ?_ ?_ ?_⟩
      · cases rt <;>
          simp [exec, quiet, applyEvs, Cpu.set, commitCount, List.countP_append,
            Event.isCommit]
      · intro m x hx
        cases x with
        | true =>
          left
          obtain ⟨_, rfl⟩ := hx rfl
          refine ⟨false, fun h => absurd h Bool.false_ne_true, ?_⟩
          simp only [Thread.finish, hrest, execAsm_cons]
          congr 1
          cases rt <;> simp [exec, quiet, applyEvs, Cpu.set]
        | false =>
          right
          have := after_ldrex_lost b T.op rt rest { T.cpu with mem := mem }
            (ArgsOK_of_eq _ _ _ rfl rfl hB) hA m
          exact this
      · intro v hv
        have := (hVT v hv).1
        rw [hrest] at this
        simp [Asm.isShim] at this
    | _ => simp [Asm.isLdrex] at hl
  · have hl2 : i.isLdrex = false := by simpa using hl
    by_cases hst : i.isStrex = true
    · -- exclusive store that does not commit
      cases i with
      | strex k rd rt =>
        have hsh := shaped_strex _ k rd rt rest hw hA
        obtain ⟨hshim, rfl⟩ := hsh
        by_cases hk : k.holds { T.cpu with mem := mem } = true
        · -- the reservation is lost
          have hx : T.cpu.excl = false := by
            simp only [commits, hk, Bool.true_and] at hc
            simpa using hc
          have hk0 : k.holds T.cpu = true := by
            have := holds_frame k T.cpu mem T.cpu.excl
            rw [← this]; exact hk
          have hfail := exec_strex_fail k rt { T.cpu with mem := mem } hk hx
          refine ⟨by rw [hfail],
            Good_transfer b T _ mem won hg hret rfl hret hsfx hargs ?_ ?_ ?_⟩
          · show commitCount (exec quiet (Asm.strex k Reg.status rt)
              { T.cpu with mem := mem }).log = commitCount T.cpu.log
            rw [hfail]
            simp [commitCount, List.countP_append, Event.isCommit]
          · intro m x hxx
            left
            cases x with
            | true =>
              have h1 : (exec quiet (Asm.strex k Reg.status rt)
                  { T.cpu with mem := mem }).excl = true := (hxx rfl).1
              rw [hfail] at h1
              cases h1
            | false =>
              refine ⟨false, fun h => absurd h Bool.false_ne_true, ?_⟩
              have hfail2 := exec_strex_fail k rt { T.cpu with mem := m, excl := false }
                ((holds_frame k T.cpu m false).trans hk0) rfl
              simp only [Thread.finish, hrest, execAsm_cons]
              rw [hfail, hfail2]
              rfl
          · intro v hv
            have := (hVT v hv).1
            rw [hrest] at this
            simp [Asm.isShim] at this
        · -- the condition fails: the store is skipped
          have hk1 : k.holds { T.cpu with mem := mem } = false := by simpa using hk
          have hk0 : k.holds T.cpu = false := by
            have := holds_frame k T.cpu mem T.cpu.excl
            rw [← this]; exact hk1
          have hskip := exec_strex_skip k Reg.status rt { T.cpu with mem := mem } hk1
          refine ⟨by rw [hskip],
            Good_transfer b T _ mem won hg hret rfl hret hsfx hargs ?_ ?_ ?_⟩
          · show commitCount (exec quiet (Asm.strex k Reg.status rt)
              { T.cpu with mem := mem }).log = commitCount T.cpu.log
            rw [hskip]
          · intro m x hxx
            left
            refine ⟨x, fun h => ?_, ?_⟩
            · have h1 : (exec quiet (Asm.strex k Reg.status rt)
                  { T.cpu with mem := mem }).excl = true ∧ m = mem := hxx h
              rw [hskip] at h1
              exact h1
            · simp only [Thread.finish, hrest, execAsm_cons]
              rw [hskip, exec_strex_skip k Reg.status rt { T.cpu with mem := m, excl := x }
                ((holds_frame k T.cpu m x).trans hk0)]
          · intro v hv
            have := (hVT v hv).1
            rw [hrest] at this
            simp [Asm.isShim] at this
      | _ => simp [Asm.isStrex] at hst
    · -- an instruction that is no exclusive access
      have hst2 : i.isStrex = false := by simpa using hst
      have hloc := exec_local i { T.cpu with mem := mem } mem T.cpu.excl hl2 hst2
      refine ⟨hloc.2.2.2, Good_transfer b T _ mem won hg hret rfl hret hsfx hargs ?_ ?_ ?_⟩
      · show commitCount (exec quiet i { T.cpu with mem := mem }).log = commitCount T.cpu.log
        rw [hloc.2.1]
      · intro m x hxx
        left
        refine ⟨x, fun h => ?_, ?_⟩
        · have := hxx h
          exact ⟨(hloc.2.2.1 ▸ this.1 : _), this.2⟩
        · simp only [Thread.finish, hrest, execAsm_cons]
          congr 1
          exact ((exec_local i { T.cpu with mem := mem } m x hl2 hst2).1).symm
      · intro v hv
        obtain ⟨h1, h2, h3⟩ := hVT v hv
        rw [hrest, List.all_cons, Bool.and_eq_true] at h1
        have hs := exec_shim quiet i { T.cpu with mem := mem } h1.1
        exact ⟨h1.2, hs.2.2.2.1.trans h2, hs.2.2.1.trans h3⟩

theorem Good_commit (b : Build) (T : Thread) (mem : Int) (won : Option Int) (now : Nat)
    (i : Asm) (rest : List Asm)
    (hg : Good b T mem won) (hret : T.ret = none) (hrest : T.rest = i :: rest)
    (hc : commits i { T.cpu with mem := mem } = true) :
    won = none ∧ T.cpu.excl = true ∧
    (exec quiet i { T.cpu with mem := mem }).mem = T.op.atomic mem ∧
    (∀ e n, T.op = Op.cmpxchg e n → mem = e) ∧
    Good b { T with cpu := exec quiet i { T.cpu with mem := mem }, rest := rest,
                    resAt := if i.isLdrex then now else T.resAt }
      (T.op.atomic mem) (some mem) := by
  have hA : i :: rest <:+ T.op.body b := hrest ▸ hg.1
  have hB := hg.2.1
  have hS := (hg.2.2.1 hret).1
  have hw := body_wellShaped b T.op
  have hd := shaped_dest _ i hw (hA.subset (List.mem_cons_self _ _))
  have hargs : ArgsOK T.op (exec quiet i { T.cpu with mem := mem }) :=
    ArgsOK_of_eq _ { T.cpu with mem := mem } _ (exec_args _ _ _ hd.1 hd.2).1
      (exec_args _ _ _ hd.1 hd.2).2 (ArgsOK_of_eq _ _ _ rfl rfl hB)
  have hsfx : rest <:+ T.op.body b := (List.suffix_cons i rest).trans hA
  cases i with
  | strex k rd rt =>
    obtain ⟨hshim, rfl⟩ := shaped_strex _ k rd rt rest hw hA
    simp only [commits, Bool.and_eq_true] at hc
    obtain ⟨hk, hx⟩ := hc
    have hx0 : T.cpu.excl = true := hx
    have hcom := exec_strex_commit k rt { T.cpu with mem := mem } hk hx
    have hself : ({ T.cpu with mem := mem, excl := true } : Cpu) = { T.cpu with mem := mem } := by
      rw [← hx0]
    have hfin : T.finish mem true =
        execAsm quiet rest (exec quiet (Asm.strex k Reg.status rt) { T.cpu with mem := mem }) := by
      simp only [Thread.finish, hrest, execAsm_cons]
      rw [hself]
    have hsh := execAsm_shim quiet rest
      (exec quiet (Asm.strex k Reg.status rt) { T.cpu with mem := mem }) hshim
    have h1 := (hS mem true (fun _ => ⟨hx0, rfl⟩)).1
    rw [hfin, hsh.2.2.2.2, hsh.1, hsh.2.2.1, hsh.2.2.2.1] at h1
    have hlog : commitCount (exec quiet (Asm.strex k Reg.status rt)
        { T.cpu with mem := mem }).log = commitCount T.cpu.log + 1 := by
      rw [hcom]
      simp [commitCount, List.countP_append, Event.isCommit]
    rcases h1 with ⟨h1, _⟩ | ⟨_, h2, h3, h4, h5, h6⟩
    · rw [hlog] at h1
      omega
    · refine ⟨h5, hx0, h2, h6, hsfx, hargs, fun _ => ⟨?_, ?_⟩, ?_⟩
      · intro m x hxx
        cases x with
        | true =>
          have h7 : (exec quiet (Asm.strex k Reg.status rt)
              { T.cpu with mem := mem }).excl = true := (hxx rfl).1
          rw [hcom] at h7
          cases h7
        | false =>
          have hsh2 := execAsm_shim quiet rest
            { exec quiet (Asm.strex k Reg.status rt) { T.cpu with mem := mem } with
                mem := m, excl := false } hshim
          refine ⟨Or.inl ⟨?_, ?_⟩, fun _ => Or.inl rfl⟩
          · exact congrArg commitCount hsh2.2.2.2.2
          · exact hsh2.1
      · intro v hv
        cases hv
        exact ⟨hshim, h4, h3⟩
      · intro r hr
        have hr2 : T.ret = some r := hr
        rw [hret] at hr2
        cases hr2
  | _ => simp [commits] at hc

theorem Good_other (b : Build) (T : Thread) (mem : Int) (won : Option Int)
    (hg : Good b T mem won) (mem2 : Int) : Good b T.clearExcl mem2 won := by
  obtain ⟨hA, hB, hC, hD⟩ := hg
  refine ⟨hA, ArgsOK_of_eq _ _ _ rfl rfl hB, fun hret => ⟨?_, (hC hret).2⟩, hD⟩
  intro m x hx
  cases x with
  | true =>
    have h7 : T.clearExcl.cpu.excl = true := (hx rfl).1
    cases h7
  | false => exact (hC hret).1 m false (fun h => absurd h Bool.false_ne_true)

theorem Good_start (b : Build) (o : Op) (c : Cpu) (mem : Int) :
    Good b (Thread.start b o c) mem none := by
  have hargs : ArgsOK o (o.enter c) := by
    cases o with
    | cmpxchg e n => exact ⟨rfl, rfl⟩
    | swap n => rfl
    | dec => trivial
  refine ⟨List.suffix_refl _, hargs, fun _ => ⟨?_, ?_⟩, ?_⟩
  · intro m x _
    have hb := body_finish b o { o.enter c with mem := m, excl := x }
      (ArgsOK_of_eq _ _ _ rfl rfl hargs)
    rcases hb with ⟨h1, h2, h3, h4⟩ | ⟨h1, h2, h3, h4, h5⟩
    · exact ⟨Or.inl ⟨h1, h2⟩, fun _ => Or.inr (Or.inr h4)⟩
    · exact ⟨Or.inr ⟨h1, h2, h3, h4, rfl, h5⟩, fun _ => Or.inr (Or.inl h1)⟩
  · intro v hv
    cases hv
  · intro r hr
    cases hr

/-! ## The machine: the invariant is kept by every step -/

theorem wonOf_append (hs : List Commit) (h : Commit) (u : Nat) :
    wonOf (hs ++ [h]) u =
      match wonOf hs u with
      | some v => some v
      | none => if h.tid = u then some h.seen else none := by
  induction hs with
  | nil => simp [wonOf]
  | cons a hs ih =>
    by_cases ha : a.tid = u
    · simp [wonOf, ha]
    · simp only [List.cons_append, wonOf, ha, if_false]
      exact ih

theorem wonOf_none (hs : List Commit) (u : Nat) (h : wonOf hs u = none) :
    u ∉ hs.map fun h => h.tid := by
  induction hs with
  | nil => simp
  | cons a hs ih =>
    by_cases ha : a.tid = u
    · simp [wonOf, ha] at h
    · simp only [wonOf, ha, if_false] at h
      simp only [List.map_cons, List.mem_cons, not_or]
      exact ⟨fun e => ha e.symm, ih h⟩

theorem wonOf_some (hs : List Commit) (u : Nat) (v : Int) (h : wonOf hs u = some v) :
    ∃ c ∈ hs, c.tid = u ∧ c.seen = v := by
  induction hs with
  | nil => simp [wonOf] at h
  | cons a hs ih =>
    by_cases ha : a.tid = u
    · simp only [wonOf, ha, if_true, Option.some.injEq] at h
      exact ⟨a, List.mem_cons_self _ _, ha, h⟩
    · simp only [wonOf, ha, if_false] at h
      obtain ⟨c, hc, h1, h2⟩ := ih h
      exact ⟨c, List.mem_cons_of_mem _ hc, h1, h2⟩

theorem wonOf_none_of_forall (hs : List Commit) (u : Nat) (h : wonOf hs u = none) :
    ∀ c ∈ hs, c.tid ≠ u := by
  intro c hc e
  exact wonOf_none hs u h (List.mem_map.mpr ⟨c, hc, e⟩)

theorem replay_append (v : Int) (hs : List Commit) (h : Commit) (m : Int)
    (hr : replay v hs = some m) (hseen : h.seen = m) :
    replay v (hs ++ [h]) = some (h.op.atomic m) := by
  induction hs generalizing v with
  | nil =>
    simp only [replay, Option.some.injEq] at hr
    subst hr
    simp [replay, hseen]
  | cons a hs ih =>
    simp only [replay] at hr
    by_cases ha : a.seen = v
    · rw [if_pos ha] at hr
      simp only [List.cons_append, replay, ha, if_true]
      exact ih _ hr
    · rw [if_neg ha] at hr
      cases hr

theorem replay_foldl (v : Int) (hs : List Commit) (m : Int) (hr : replay v hs = some m) :
    hs.foldl (fun x h => h.op.atomic x) v = m := by
  induction hs generalizing v with
  | nil =>
    simp only [replay, Option.some.injEq] at hr
    exact hr
  | cons a hs ih =>
    simp only [replay] at hr
    by_cases ha : a.seen = v
    · rw [if_pos ha] at hr
      exact ih _ hr
    · rw [if_neg ha] at hr
      cases hr

theorem exec_excl (i : Asm) (c : Cpu) (h : (exec quiet i c).excl = true) :
    i.isLdrex = true ∨ (c.excl = true ∧ commits i c = false) := by
  by_cases hl : i.isLdrex = true
  · exact Or.inl hl
  · right
    have hl2 : i.isLdrex = false := by simpa using hl
    by_cases hst : i.isStrex = true
    · cases i with
      | strex k rd rt =>
        by_cases hk : k.holds c = true
        · exfalso
          by_cases hx : c.excl = true <;>
            simp [exec, quiet, applyEvs, hk, hx, Cpu.set] at h
        · have hk1 : k.holds c = false := by simpa using hk
          rw [exec_strex_skip k rd rt c hk1] at h
          exact ⟨h, by simp [commits, hk1]⟩
      | _ => simp [Asm.isStrex] at hst
    · have hst2 : i.isStrex = false := by simpa using hst
      have := (exec_local i c c.mem c.excl hl2 hst2).2.2.1
      refine ⟨this ▸ h, ?_⟩
      cases i <;> simp [commits] at hst2 ⊢
      simp [Asm.isStrex] at hst2

theorem Thread.step_returned (b : Build) (T : Thread) (mem : Int) (now : Nat) (r : Int)
    (hret : T.ret = some r) : T.step b mem now = (T, mem, false) := by
  unfold Thread.step
  rw [hret]

theorem Thread.step_retry (b : Build) (T : Thread) (mem : Int) (now : Nat)
    (hret : T.ret = none) (hrest : T.rest = []) (hs : T.cpu.status ≠ 0) :
    T.step b mem now =
      ({ T with cpu := { T.cpu with log := T.cpu.log ++ [Event.retry] },
                rest := T.op.body b }, mem, false) := by
  unfold Thread.step
  rw [hret, hrest]
  simp only
  rw [if_pos hs]

theorem Thread.step_exit (b : Build) (T : Thread) (mem : Int) (now : Nat)
    (hret : T.ret = none) (hrest : T.rest = []) (hs : T.cpu.status = 0) :
    T.step b mem now =
      ({ T with cpu := { T.cpu with log := T.cpu.log ++ [Event.done] },
                ret := some (T.op.result T.cpu) }, mem, false) := by
  unfold Thread.step
  rw [hret, hrest]
  simp only
  rw [if_neg (not_not.mpr hs)]

theorem Thread.step_instr (b : Build) (T : Thread) (mem : Int) (now : Nat) (i : Asm)
    (rest : List Asm) (hret : T.ret = none) (hrest : T.rest = i :: rest) :
    T.step b mem now =
      ({ T with cpu := exec quiet i { T.cpu with mem := mem }, rest := rest,
                resAt := if i.isLdrex then now else T.resAt },
       (exec quiet i { T.cpu with mem := mem }).mem,
       commits i { T.cpu with mem := mem }) := by
  unfold Thread.step
  rw [hret, hrest]

/-- What one step of a thread does to the thread invariant, the target word, the
time stamp of the reservation and the operation. -/
theorem Thread.step_spec (b : Build) (T : Thread) (mem : Int) (won : Option Int) (now : Nat)
    (hg : Good b T mem won) :
    ((T.step b mem now).2.2 = false →
      (T.step b mem now).2.1 = mem ∧ Good b (T.step b mem now).1 mem won ∧
      ((T.step b mem now).1.cpu.excl = true →
        (T.step b mem now).1.resAt = now ∨
          (T.cpu.excl = true ∧ (T.step b mem now).1.resAt = T.resAt))) ∧
    ((T.step b mem now).2.2 = true →
      won = none ∧ T.cpu.excl = true ∧ (T.step b mem now).2.1 = T.op.atomic mem ∧
      (∀ e n, T.op = Op.cmpxchg e n → mem = e) ∧
      Good b (T.step b mem now).1 (T.op.atomic mem) (some mem) ∧
      (T.step b mem now).1.cpu.excl = false) ∧
    (T.step b mem now).1.op = T.op ∧
    ((T.step b mem now).1.resAt = now ∨ (T.step b mem now).1.resAt = T.resAt) := by
  cases hret : T.ret with
  | some r =>
    rw [Thread.step_returned b T mem now r hret]
    exact ⟨fun _ => ⟨rfl, hg, fun h => Or.inr ⟨h, rfl⟩⟩,
      fun h => absurd h Bool.false_ne_true, rfl, Or.inr rfl⟩
  | none =>
    cases hrest : T.rest with
    | nil =>
      by_cases hs : T.cpu.status = 0
      · rw [Thread.step_exit b T mem now hret hrest hs]
        exact ⟨fun _ => ⟨rfl, Good_exit b T mem won hg hret hrest hs,
          fun h => Or.inr ⟨h, rfl⟩⟩, fun h => absurd h Bool.false_ne_true, rfl, Or.inr rfl⟩
      · rw [Thread.step_retry b T mem now hret hrest hs]
        exact ⟨fun _ => ⟨rfl, Good_retry b T mem won hg hret hs,
          fun h => Or.inr ⟨h, rfl⟩⟩, fun h => absurd h Bool.false_ne_true, rfl, Or.inr rfl⟩
    | cons i rest =>
      rw [Thread.step_instr b T mem now i rest hret hrest]
      refine ⟨fun hc => ?_, fun hc => ?_, rfl, ?_⟩
      · obtain ⟨h1, h2⟩ := Good_instr b T mem won now i rest hg hret hrest hc
        refine ⟨h1, h2, fun hx => ?_⟩
        have hx1 : (exec quiet i { T.cpu with mem := mem }).excl = true := hx
        rcases exec_excl i _ hx1 with hl | ⟨hx2, _⟩
        · left
          show (if i.isLdrex = true then now else T.resAt) = now
          rw [if_pos hl]
        · by_cases hl : i.isLdrex = true
          · left
            show (if i.isLdrex = true then now else T.resAt) = now
            rw [if_pos hl]
          · right
            refine ⟨hx2, ?_⟩
            show (if i.isLdrex = true then now else T.resAt) = T.resAt
            rw [if_neg hl]
      · obtain ⟨h1, h2, h3, h4, h5⟩ := Good_commit b T mem won now i rest hg hret hrest hc
        refine ⟨h1, h2, h3, h4, h5, ?_⟩
        show (exec quiet i { T.cpu with mem := mem }).excl = false
        have hc1 : commits i { T.cpu with mem := mem } = true := hc
        cases hx : (exec quiet i { T.cpu with mem := mem }).excl with
        | false => rfl
        | true =>
          rcases exec_excl i _ hx with hl | ⟨_, hc2⟩
          · cases i <;> simp [commits, Asm.isLdrex] at hc1 hl
          · rw [hc2] at hc1; cases hc1
      · by_cases hl : i.isLdrex = true
        · left
          show (if i.isLdrex = true then now else T.resAt) = now
          rw [if_pos hl]
        · right
          show (if i.isLdrex = true then now else T.resAt) = T.resAt
          rw [if_neg hl]

theorem World.step_none (b : Build) (w : World) (t : Nat) (h : w.threads[t]? = none) :
    World.step b w t = w := by
  unfold World.step
  rw [h]

theorem World.step_some (b : Build) (w : World) (t : Nat) (T : Thread)
    (h : w.threads[t]? = some T) :
    World.step b w t =
      { mem := (T.step b w.mem w.now).2.1,
        now := w.now + 1,
        threads :=
          (if (T.step b w.mem w.now).2.2 then w.threads.map Thread.clearExcl
            else w.threads).set t (T.step b w.mem w.now).1,
        hist :=
          if (T.step b w.mem w.now).2.2 then
            w.hist ++ [{ tid := t, op := T.op, loaded := T.resAt, stored := w.now,
                         seen := w.mem }]
          else w.hist } := by
  unfold World.step
  rw [h]

theorem set_same {α : Type} (l : List α) (i : Nat) (a : α) (h : l[i]? = some a) :
    l.set i a = l := by
  induction l generalizing i with
  | nil => rfl
  | cons x l ih =>
    cases i with
    | zero =>
      simp only [List.getElem?_cons_zero, Option.some.injEq] at h
      rw [List.set_cons_zero, h]
    | succ i =>
      simp only [List.getElem?_cons_succ] at h
      rw [List.set_cons_succ, ih i h]

theorem Inv_step (b : Build) (v : Int) (ops : List Op) (w : World) (t : Nat)
    (h : Inv b v ops w) : Inv b v ops (World.step b w t) := by
  cases hT : w.threads[t]? with
  | none => rw [World.step_none b w t hT]; exact h
  | some T =>
    rw [World.step_some b w t T hT]
    have hspec := Thread.step_spec b T w.mem (wonOf w.hist t) w.now (h.good t T hT)
    have hfreshT := h.fresh t T hT
    have hopT : ops[t]? = some T.op := by
      rw [← h.ops_eq, List.getElem?_map, hT]; rfl
    generalize T.step b w.mem w.now = res at hspec
    obtain ⟨T2, m2, cm⟩ := res
    obtain ⟨hquiet, hcommit, hop, hres⟩ := hspec
    have hop2 : T2.op = T.op := hop
    have hres2 : T2.resAt = w.now ∨ T2.resAt = T.resAt := hres
    cases cm with
    | false =>
      obtain ⟨hm, hg2, hx2⟩ := hquiet rfl
      have hm2 : m2 = w.mem := hm
      have hg3 : Good b T2 w.mem (wonOf w.hist t) := hg2
      subst hm2
      simp only [Bool.false_eq_true, if_false]
      refine ⟨h.replayed, ?_, h.once, ?_, h.apart, ?_, ?_, h.owner, h.matched⟩
      · intro u Tu hu
        rw [List.getElem?_set] at hu
        by_cases htu : t = u
        · subst htu
          rw [if_pos rfl] at hu
          by_cases hlt : t < w.threads.length
          · rw [if_pos hlt] at hu
            cases hu
            exact hg3
          · rw [if_neg hlt] at hu
            cases hu
        · rw [if_neg htu] at hu
          exact h.good u Tu hu
      · intro c hc
        have := h.past c hc
        exact ⟨Nat.lt_succ_of_lt this.1, this.2⟩
      · intro u Tu hu
        rw [List.getElem?_set] at hu
        by_cases htu : t = u
        · subst htu
          rw [if_pos rfl] at hu
          by_cases hlt : t < w.threads.length
          · rw [if_pos hlt] at hu
            cases hu
            refine ⟨?_, fun hx c hc => ?_⟩
            · show T2.resAt ≤ w.now + 1
              omega
            rcases hx2 hx with hnow | ⟨hxT, hsame⟩
            · have hnow2 : T2.resAt = w.now := hnow
              rw [hnow2]
              exact (h.past c hc).1
            · have hsame2 : T2.resAt = T.resAt := hsame
              rw [hsame2]
              exact hfreshT.2 hxT c hc
          · rw [if_neg hlt] at hu
            cases hu
        · rw [if_neg htu] at hu
          have := h.fresh u Tu hu
          exact ⟨Nat.le_succ_of_le this.1, this.2⟩
      · rw [List.map_set, hop2, h.ops_eq]
        exact set_same _ _ _ hopT
    | true =>
      obtain ⟨hwon, hxT, hm, hcas, hg2, hx2⟩ := hcommit rfl
      have hm2 : m2 = T.op.atomic w.mem := hm
      have hg3 : Good b T2 (T.op.atomic w.mem) (some w.mem) := hg2
      have hx3 : T2.cpu.excl = false := hx2
      subst hm2
      simp only [if_true]
      have hself : wonOf (w.hist ++ [Commit.mk t T.op T.resAt w.now w.mem]) t
          = some w.mem := by
        rw [wonOf_append, hwon]
        simp
      have hoth : ∀ u, t ≠ u → wonOf (w.hist ++ [Commit.mk t T.op T.resAt w.now w.mem]) u
          = wonOf w.hist u := by
        intro u htu
        rw [wonOf_append]
        cases wonOf w.hist u <;> simp [htu]
      refine ⟨replay_append v w.hist _ w.mem h.replayed rfl, ?_, ?_, ?_, ?_, ?_, ?_, ?_, ?_⟩
      · intro u Tu hu
        rw [List.getElem?_set] at hu
        by_cases htu : t = u
        · subst htu
          rw [if_pos rfl] at hu
          by_cases hlt : t < (w.threads.map Thread.clearExcl).length
          · rw [if_pos hlt] at hu
            cases hu
            rw [hself]
            exact hg3
          · rw [if_neg hlt] at hu
            cases hu
        · rw [if_neg htu, List.getElem?_map] at hu
          cases hTu : w.threads[u]? with
          | none => rw [hTu] at hu; cases hu
          | some T0 =>
            rw [hTu] at hu
            cases hu
            rw [hoth u htu]
            exact Good_other b T0 w.mem _ (h.good u T0 hTu) _
      · rw [List.map_append, List.nodup_append]
        refine ⟨h.once, by simp, ?_⟩
        intro x hx1 hx2
        simp only [List.map_cons, List.map_nil, List.mem_singleton] at hx2
        subst hx2
        exact wonOf_none w.hist _ hwon hx1
      · intro c hc
        rw [List.mem_append, List.mem_singleton] at hc
        rcases hc with hc | rfl
        · have := h.past c hc
          exact ⟨Nat.lt_succ_of_lt this.1, this.2⟩
        · exact ⟨Nat.lt_succ_self _, hfreshT.1⟩
      · rw [List.pairwise_append]
        refine ⟨h.apart, List.pairwise_singleton _ _, ?_⟩
        intro a ha c hc
        rw [List.mem_singleton] at hc
        subst hc
        exact hfreshT.2 hxT a ha
      · intro u Tu hu
        rw [List.getElem?_set] at hu
        by_cases htu : t = u
        · subst htu
          rw [if_pos rfl] at hu
          by_cases hlt : t < (w.threads.map Thread.clearExcl).length
          · rw [if_pos hlt] at hu
            cases hu
            refine ⟨?_, fun hx => ?_⟩
            · show T2.resAt ≤ w.now + 1
              omega
            · rw [hx3] at hx
              cases hx
          · rw [if_neg hlt] at hu
            cases hu
        · rw [if_neg htu, List.getElem?_map] at hu
          cases hTu : w.threads[u]? with
          | none => rw [hTu] at hu; cases hu
          | some T0 =>
            rw [hTu] at hu
            cases hu
            have := h.fresh u T0 hTu
            refine ⟨?_, fun hx => ?_⟩
            · show T0.resAt ≤ w.now + 1
              omega
            · cases hx
      · rw [List.map_set, hop2, List.map_map]
        have hcl : (fun T => T.op) ∘ Thread.clearExcl = fun T : Thread => T.op := rfl
        rw [hcl, h.ops_eq]
        exact set_same _ _ _ hopT
      · intro c hc
        rw [List.mem_append, List.mem_singleton] at hc
        rcases hc with hc | rfl
        · exact h.owner c hc
        · exact hopT

      · intro c hc
        rw [List.mem_append, List.mem_singleton] at hc
        rcases hc with hc | rfl
        · exact h.matched c hc
        · exact hcas

theorem Inv_start (b : Build) (v : Int) (calls : List (Op × Cpu)) :
    Inv b v (calls.map fun oc => oc.1) (World.start b v calls) := by
  refine ⟨rfl, ?_, List.nodup_nil, ?_, List.Pairwise.nil, ?_, ?_, ?_, ?_⟩
  · intro u T hu
    have hu2 : (calls.map fun oc => Thread.start b oc.1 oc.2)[u]? = some T := hu
    rw [List.getElem?_map] at hu2
    cases hc : calls[u]? with
    | none => rw [hc] at hu2; cases hu2
    | some oc =>
      rw [hc] at hu2
      cases hu2
      exact Good_start b oc.1 oc.2 v
  · intro c hc
    cases hc
  · intro u T hu
    have hu2 : (calls.map fun oc => Thread.start b oc.1 oc.2)[u]? = some T := hu
    rw [List.getElem?_map] at hu2
    cases hc : calls[u]? with
    | none => rw [hc] at hu2; cases hu2
    | some oc =>
      rw [hc] at hu2
      cases hu2
      exact ⟨Nat.le_refl _, fun _ c hc => by cases hc⟩
  · show (calls.map fun oc => Thread.start b oc.1 oc.2).map (fun T => T.op) = _
    rw [List.map_map]
    rfl
  · intro c hc
    cases hc
  · intro c hc
    cases hc

theorem Inv_lose (b : Build) (v : Int) (ops : List Op) (w : World) (t : Nat)
    (h : Inv b v ops w) : Inv b v ops (World.lose w t) := by
  unfold World.lose
  cases hT : w.threads[t]? with
  | none => exact h
  | some T =>
    have hopT : ops[t]? = some T.op := by
      rw [← h.ops_eq, List.getElem?_map, hT]; rfl
    refine ⟨h.replayed, ?_, h.once, h.past, h.apart, ?_, ?_, h.owner, h.matched⟩
    · intro u Tu hu
      have hu2 : (w.threads.set t T.clearExcl)[u]? = some Tu := hu
      rw [List.getElem?_set] at hu2
      by_cases htu : t = u
      · subst htu
        rw [if_pos rfl] at hu2
        by_cases hlt : t < w.threads.length
        · rw [if_pos hlt] at hu2
          cases hu2
          exact Good_other b T w.mem _ (h.good t T hT) w.mem
        · rw [if_neg hlt] at hu2
          cases hu2
      · rw [if_neg htu] at hu2
        exact h.good u Tu hu2
    · intro u Tu hu
      have hu2 : (w.threads.set t T.clearExcl)[u]? = some Tu := hu
      rw [List.getElem?_set] at hu2
      by_cases htu : t = u
      · subst htu
        rw [if_pos rfl] at hu2
        by_cases hlt : t < w.threads.length
        · rw [if_pos hlt] at hu2
          cases hu2
          exact ⟨(h.fresh t T hT).1, fun hx => by cases hx⟩
        · rw [if_neg hlt] at hu2
          cases hu2
      · rw [if_neg htu] at hu2
        exact h.fresh u Tu hu2
    · show (w.threads.set t T.clearExcl).map (fun T => T.op) = ops
      rw [List.map_set, h.ops_eq]
      exact set_same _ _ _ hopT

theorem Inv_run (b : Build) (v : Int) (ops : List Op) (sched : List Act) :
    ∀ w, Inv b v ops w → Inv b v ops (World.run b sched w) := by
  induction sched with
  | nil => intro w h; exact h
  | cons a ts ih =>
    intro w h
    cases a with
    | run t => exact ih _ (Inv_step b v ops w t h)
    | lose t => exact ih _ (Inv_lose b v ops w t h)

/-! ## Threads racing on one word -/

/-- The three C functions are the retry loop run on the assembly statement, the
entry state and the result that `Op` assigns to the call. -/
theorem Op.call_eq (b : Build) (s : Sched) (fuel : Nat) (e n : Int) (c : Cpu) :
    __bionic_cmpxchg b s fuel e n c =
        (doWhile ((Op.cmpxchg e n).body b) s fuel 0 ((Op.cmpxchg e n).enter c)).map
          (fun c1 => ((Op.cmpxchg e n).result c1, c1)) ∧
    __bionic_swap b s fuel n c =
        (doWhile ((Op.swap n).body b) s fuel 0 ((Op.swap n).enter c)).map
          (fun c1 => ((Op.swap n).result c1, c1)) ∧
    __bionic_atomic_dec b s fuel c =
        (doWhile (Op.dec.body b) s fuel 0 (Op.dec.enter c)).map
          (fun c1 => (Op.dec.result c1, c1)) :=
  ⟨rfl, rfl, rfl⟩

/-- C6: threads that race `__bionic_cmpxchg`, `__bionic_swap` and
`__bionic_atomic_dec` on one word, interleaved instruction by instruction in
any order `sched`, with reservation losses at any time, from any register
states. After the run:
(1) the word holds the result of applying the committed operations one after
the other, in the order of their commits, as atomic operations to the initial
value, each of them having seen the value its predecessors left, and a
committed compare-and-swap having seen its expected value;
(2) the reservations of two committed stores never overlap: the earlier store
was committed before the exclusive load of the later one, so among stores with
overlapping reservations at most one commits;
(3) every thread commits at most once, and with its own operation;
(4) a thread returns only after its store was committed, with the value the
atomic operation returns, or, for `__bionic_cmpxchg`, after it read a value
other than the expected one, with 1: a thread whose store lost its reservation
goes round again. -/
theorem racing_threads_linearize (b : Build) (v : Int) (calls : List (Op × Cpu))
    (sched : List Act) :
    ((World.run b sched (World.start b v calls)).mem =
        (World.run b sched (World.start b v calls)).hist.foldl (fun m h => h.op.atomic m) v ∧
      replay v (World.run b sched (World.start b v calls)).hist =
        some (World.run b sched (World.start b v calls)).mem ∧
      ∀ h ∈ (World.run b sched (World.start b v calls)).hist,
        ∀ e n, h.op = Op.cmpxchg e n → h.seen = e) ∧
    ((World.run b sched (World.start b v calls)).hist.Pairwise
        (fun h1 h2 => h1.stored < h2.loaded) ∧
      ∀ h ∈ (World.run b sched (World.start b v calls)).hist, h.loaded ≤ h.stored) ∧
    (((World.run b sched (World.start b v calls)).hist.map fun h => h.tid).Nodup ∧
      ∀ h ∈ (World.run b sched (World.start b v calls)).hist,
        (calls.map fun oc => oc.1)[h.tid]? = some h.op) ∧
    (∀ (u : Nat) (T : Thread) (r : Int),
      (World.run b sched (World.start b v calls)).threads[u]? = some T → T.ret = some r →
        (∃ h ∈ (World.run b sched (World.start b v calls)).hist,
            h.tid = u ∧ r = T.op.reply h.seen) ∨
        ((∀ h ∈ (World.run b sched (World.start b v calls)).hist, h.tid ≠ u) ∧
          ∃ e n, T.op = Op.cmpxchg e n ∧ T.cpu.prev ≠ e ∧ r = 1)) := by
  have hinv := Inv_run b v _ sched _ (Inv_start b v calls)
  generalize World.run b sched (World.start b v calls) = w at hinv
  refine ⟨⟨(replay_foldl v w.hist w.mem hinv.replayed).symm, hinv.replayed, hinv.matched⟩,
    ⟨hinv.apart, fun h hh => (hinv.past h hh).2⟩, ⟨hinv.once, hinv.owner⟩, ?_⟩
  intro u T r hu hr
  rcases (hinv.good u T hu).2.2.2 r hr with ⟨x, hx, hrx⟩ | ⟨hx, ⟨e, n, ho, hp⟩, hr1⟩
  · obtain ⟨c, hc, h1, h2⟩ := wonOf_some w.hist u x hx
    exact Or.inl ⟨c, hc, h1, by rw [h2]; exact hrx⟩
  · exact Or.inr ⟨wonOf_none_of_forall w.hist u hx, e, n, ho, hp, hr1⟩

/-- A schedule on which thread 0 (swap 3) and thread 1 (decrement) race on a word
holding 7: both load, thread 0 commits, thread 1 loses its store, goes round
again and commits. -/
theorem racing_threads_linearize_witness :
    (World.run ⟨false, false⟩
        [Act.run 0, Act.run 1, Act.run 0, Act.run 1, Act.run 1, Act.run 0, Act.run 1,
         Act.run 1, Act.run 1, Act.run 1, Act.run 1]
        (World.start ⟨false, false⟩ 7
          [(Op.swap 3, entry ⟨false, false⟩ 0), (Op.dec, entry ⟨false, false⟩ 0)])).mem = 2 :=
  (racing_threads_linearize ⟨false, false⟩ 7
    [(Op.swap 3, entry ⟨false, false⟩ 0), (Op.dec, entry ⟨false, false⟩ 0)]
    [Act.run 0, Act.run 1, Act.run 0, Act.run 1, Act.run 1, Act.run 0, Act.run 1,
     Act.run 1, Act.run 1, Act.run 1, Act.run 1]).1.1.trans (by decide)

end BionicAtomicArm
